import Mathlib

/-!
# CppProgramMetrics: elapsed-time, CPU-time and peak-memory probes

A shallow embedding of `c-and-cpp/CppProgramMetrics.cpp`.

* `double` is modelled by `Double`: a finite value is the exact rational it denotes, every
  arithmetic operation computes the exact rational result and rounds it to the binary64 grid
  (round to nearest, ties to even), overflowing to an infinity.  The two zeros are identified:
  no operation of the program can produce a negative zero.
* `std::chrono::steady_clock::time_point` is its 64-bit signed nanosecond count; the clock
  readings are explicit arguments of the operations that call `steady_clock::now()`.
* `getrusage` readings are explicit arguments as well.
* `std::cout` is modelled by the sequence of values inserted into it, together with the
  sticky `std::fixed` flag.
-/

namespace Metrics

/-! ## binary64 arithmetic -/

/-- Auxiliary for `nlog2`: structural recursion on a fuel argument. -/
def log2Fuel : Nat → Nat → Nat
  | 0, _ => 0
  | fuel + 1, n => if 2 ≤ n then log2Fuel fuel (n / 2) + 1 else 0

/-- Floor of the base-2 logarithm of a natural number (`0` for `0`). -/
def nlog2 (n : Nat) : Nat := log2Fuel n n

/-- Auxiliary for `nclog2`: structural recursion on a fuel argument. -/
def clog2Fuel : Nat → Nat → Nat
  | 0, _ => 0
  | fuel + 1, n => if 2 ≤ n then clog2Fuel fuel ((n + 1) / 2) + 1 else 0

/-- Ceiling of the base-2 logarithm of a natural number (`0` for `0` and `1`). -/
def nclog2 (n : Nat) : Nat := clog2Fuel n n

/-- The binary exponent of a positive rational `a`: the integer `e` with
`2 ^ e ≤ a < 2 ^ (e + 1)`. -/
def ilog2 (a : ℚ) : ℤ :=
  if 1 ≤ a then (nlog2 ⌊a⌋₊ : ℤ) else -(nclog2 ⌈a⁻¹⌉₊ : ℤ)

/-- Rounding of a rational to the nearest integer, a tie going to the even neighbour. -/
def roundHalfEven (x : ℚ) : ℤ :=
  let f := ⌊x⌋
  let r := x - f
  if r < 1 / 2 then f
  else if 1 / 2 < r then f + 1
  else if f % 2 = 0 then f else f + 1

/-- The spacing of the binary64 grid around a positive rational `a`: `2 ^ (e - 52)` for the
binary exponent `e` of `a`, and `2 ^ (-1074)` throughout the subnormal range. -/
def quantum (a : ℚ) : ℚ := 2 ^ (max (ilog2 a) (-1022) - 52)

/-- Rounding of a positive rational to the binary64 grid, the exponent range unbounded
above. -/
def roundPos (a : ℚ) : ℚ := roundHalfEven (a / quantum a) * quantum a

/-- A value of type `double`. -/
inductive Double where
  | fin (q : ℚ)
  | pinf
  | ninf
  | nan
deriving DecidableEq, Repr

namespace Double

/-- The binary64 rounding of an exact result: round to nearest, ties to even; a result whose
rounding reaches `2 ^ 1024` overflows to the infinity of its sign. -/
def rne (x : ℚ) : Double :=
  if x = 0 then fin 0
  else if 0 < x then
    (if roundPos x < 2 ^ (1024 : ℕ) then fin (roundPos x) else pinf)
  else
    (if roundPos (-x) < 2 ^ (1024 : ℕ) then fin (-roundPos (-x)) else ninf)

/-- Conversion of a (64-bit) integer to `double`. -/
def ofInt (n : ℤ) : Double := rne n

/-- The `double` zero. -/
def zero : Double := fin 0

/-- The rational denoted by a finite `double` (`0` for the infinities and NaN). -/
def toRat : Double → ℚ
  | fin q => q
  | _ => 0

/-- IEEE addition. -/
def add : Double → Double → Double
  | nan, _ => nan
  | _, nan => nan
  | pinf, ninf => nan
  | ninf, pinf => nan
  | pinf, _ => pinf
  | _, pinf => pinf
  | ninf, _ => ninf
  | _, ninf => ninf
  | fin a, fin b => rne (a + b)

/-- IEEE division (the zero of the model is the positive zero). -/
def div : Double → Double → Double
  | nan, _ => nan
  | _, nan => nan
  | fin a, fin b =>
    if b = 0 then (if a = 0 then nan else if 0 < a then pinf else ninf)
    else rne (a / b)
  | fin _, _ => fin 0
  | pinf, fin b => if 0 ≤ b then pinf else ninf
  | ninf, fin b => if 0 ≤ b then ninf else pinf
  | _, _ => nan

/-- The comparison `x <= y` of two `double`s. -/
def le : Double → Double → Prop
  | nan, _ => False
  | _, nan => False
  | ninf, _ => True
  | _, pinf => True
  | fin a, fin b => a ≤ b
  | _, _ => False

/-- The comparison `x < y` of two `double`s. -/
def lt : Double → Double → Prop
  | nan, _ => False
  | _, nan => False
  | pinf, _ => False
  | _, ninf => False
  | fin a, fin b => a < b
  | _, _ => True

instance decLe (x y : Double) : Decidable (le x y) := by
  cases x <;> cases y <;> simp only [le] <;> infer_instance

instance decLt (x y : Double) : Decidable (lt x y) := by
  cases x <;> cases y <;> simp only [lt] <;> infer_instance

end Double

/-! ## Machine integers and OS readings -/

/-- Reduction of an integer to the range of a signed 64-bit integer (`long`, `int64_t`). -/
def wrap64 (n : ℤ) : ℤ := (n + 2 ^ 63) % 2 ^ 64 - 2 ^ 63

/-- A `struct timeval`: whole seconds and microseconds, both `long`. -/
structure Timeval where
  tv_sec : ℤ
  tv_usec : ℤ
deriving DecidableEq, Repr

/-- The fields of `struct rusage` that the program reads. -/
structure Rusage where
  ru_utime : Timeval
  ru_stime : Timeval
  ru_maxrss : ℤ
deriving DecidableEq, Repr

/-! ## `std::cout` -/

/-- One insertion into `std::cout`.  A `double` records whether the `fixed` flag of the
stream was set when it was inserted. -/
inductive Item where
  | str (s : String)
  | chr (c : Char)
  | dbl (fixed : Bool) (x : Double)
  | size (n : ℕ)
  | endl
deriving DecidableEq, Repr

/-- The state of `std::cout`: the sticky `fixed` flag and everything inserted so far. -/
structure OStream where
  fixed : Bool
  items : List Item
deriving DecidableEq, Repr

namespace OStream

/-- Insertion of one item. -/
def put (o : OStream) (i : Item) : OStream := { o with items := o.items ++ [i] }

/-- `<< std::fixed`. -/
def setFixed (o : OStream) : OStream := { o with fixed := true }

/-- `<< x` for a `double`. -/
def putDouble (o : OStream) (x : Double) : OStream := o.put (Item.dbl o.fixed x)

end OStream

/-- Whether an item ends the current line: `'\n'` or `std::endl`. -/
def Item.isNewline : Item → Bool
  | Item.chr c => c == '\n'
  | Item.endl => true
  | _ => false

/-- Auxiliary for `lines`: `cur` holds the current, unfinished line in reverse. -/
def linesAux : List Item → List Item → List (List Item)
  | cur, [] => if cur.isEmpty then [] else [cur.reverse]
  | cur, i :: rest =>
    if i.isNewline then cur.reverse :: linesAux [] rest else linesAux (i :: cur) rest

/-- The lines of an output: the runs of items between line ends. -/
def lines (items : List Item) : List (List Item) := linesAux [] items

/-! ## `class ElapsedTime` -/

/-- The data members of `ElapsedTime`; a `time_point` is its nanosecond count. -/
structure ElapsedTime where
  m_startMsg : String
  begin : ℤ
  end_ : ℤ
  m_elapsedTime : Double
deriving DecidableEq, Repr

/-- Conversion of a nanosecond count to `std::chrono::duration<double>` (seconds): the count
is converted to `double` and divided by the `double` `1000000000`. -/
def toSeconds (ns : ℤ) : Double := Double.div (Double.ofInt ns) (Double.ofInt 1000000000)

/-- The local `timeTaken` of `stop` and `stopAccumulate`: `end - begin`, a 64-bit nanosecond
difference, as `duration<double>`. -/
def timeTaken (begin end_ : ℤ) : Double := toSeconds (wrap64 (end_ - begin))

namespace ElapsedTime

/-- `void start()`. -/
def start (self : ElapsedTime) (now : ℤ) : ElapsedTime :=
  { self with m_elapsedTime := Double.ofInt 0, begin := now }

/-- `void startAccumulate(const std::string &s)`. -/
def startAccumulate (self : ElapsedTime) (s : String) (now : ℤ) : ElapsedTime :=
  { self with m_startMsg := s, begin := now }

/-- `void start(const std::string &s)`. -/
def startWith (self : ElapsedTime) (s : String) (now : ℤ) : ElapsedTime :=
  start { self with m_startMsg := s } now

/-- The constructor `ElapsedTime()`: the string is empty, the time points are zero and
`m_elapsedTime` holds an indeterminate value `uninit` when the body runs. -/
def new (uninit : Double) (now : ℤ) : ElapsedTime :=
  { start { m_startMsg := "", begin := 0, end_ := 0, m_elapsedTime := uninit } now with
    m_elapsedTime := Double.ofInt 0 }

/-- `void printTime()`. -/
def printTime (self : ElapsedTime) (o : OStream) : OStream :=
  ((((o.setFixed.put (Item.str "Elapsed time[")).put (Item.str self.m_startMsg)).put
    (Item.str "](seconds): ")).putDouble self.m_elapsedTime).put (Item.chr '\n')

/-- `void stop()`. -/
def stop (self : ElapsedTime) (now : ℤ) (o : OStream) : ElapsedTime × OStream :=
  let s1 := { self with end_ := now }
  let t := timeTaken s1.begin s1.end_
  let s2 := { s1 with m_elapsedTime := Double.add s1.m_elapsedTime t }
  (s2, ((((o.setFixed.put (Item.str "Elapsed time[")).put (Item.str s2.m_startMsg)).put
    (Item.str "](seconds): ")).putDouble t).put (Item.chr '\n'))

/-- `void stopAccumulate()`. -/
def stopAccumulate (self : ElapsedTime) (now : ℤ) : ElapsedTime :=
  let s1 := { self with end_ := now }
  let t := timeTaken s1.begin s1.end_
  { s1 with m_elapsedTime := Double.add s1.m_elapsedTime t }

end ElapsedTime

/-! ## `class CppMemoryMetrics` -/

/-- `CppMemoryMetrics` has no data members. -/
structure CppMemoryMetrics where
deriving DecidableEq, Repr

namespace CppMemoryMetrics

/-- `size_t getPeakMemoryUsageInBytes()`; `r` is what `getrusage` reports.  The product is
computed in `long` and converted to the 64-bit unsigned `size_t`. -/
def getPeakMemoryUsageInBytes (_self : CppMemoryMetrics) (r : Rusage) : ℕ :=
  (wrap64 (r.ru_maxrss * 1024) % 2 ^ 64).toNat

/-- `void printMemoryUsageInKb()`. -/
def printMemoryUsageInKb (self : CppMemoryMetrics) (r : Rusage) (o : OStream) : OStream :=
  ((o.put (Item.str "Memory usage(KB): ")).put
    (Item.size (self.getPeakMemoryUsageInBytes r / 1024))).put Item.endl

end CppMemoryMetrics

/-! ## `class CppCpuMetrics` -/

/-- The data members of `CppCpuMetrics` (`m_totalCpuTime` is a `long double` that only ever
holds zero). -/
structure CppCpuMetrics where
  cpuResUsage : Rusage
  m_endCpuTime : Double
  m_totalCpuTime : Double
  m_descriptionStr : String
deriving DecidableEq, Repr

/-- `const int numberOfMicroSecInSec=1000000`. -/
def numberOfMicroSecInSec : ℤ := 1000000

/-- The expression `tv.tv_sec + (tv.tv_usec / static_cast<double>(numberOfMicroSecInSec))`. -/
def timevalSeconds (tv : Timeval) : Double :=
  Double.add (Double.ofInt tv.tv_sec)
    (Double.div (Double.ofInt tv.tv_usec) (Double.ofInt numberOfMicroSecInSec))

namespace CppCpuMetrics

/-- The constructor `CppCpuMetrics()`; `cpuResUsage` starts indeterminate. -/
def new (uninit : Rusage) : CppCpuMetrics :=
  { cpuResUsage := uninit, m_endCpuTime := Double.ofInt 0, m_totalCpuTime := Double.ofInt 0,
    m_descriptionStr := "" }

/-- `double getUserCpuTimeInSeconds()`; `r` is what `getrusage` reports. -/
def getUserCpuTimeInSeconds (self : CppCpuMetrics) (r : Rusage) : CppCpuMetrics × Double :=
  let s := { self with cpuResUsage := r }
  (s, timevalSeconds s.cpuResUsage.ru_utime)

/-- `void printUserCpuTimeInSeconds()`. -/
def printUserCpuTimeInSeconds (self : CppCpuMetrics) (r : Rusage) (o : OStream) :
    CppCpuMetrics × OStream :=
  let (s, v) := self.getUserCpuTimeInSeconds r
  (s, ((o.put (Item.str "User CPU time(Seconds): ")).putDouble v).put (Item.chr '\n'))

/-- `double getSystemCpuTimeInSeconds()`; `r` is what `getrusage` reports. -/
def getSystemCpuTimeInSeconds (self : CppCpuMetrics) (r : Rusage) : CppCpuMetrics × Double :=
  let s := { self with cpuResUsage := r }
  (s, timevalSeconds s.cpuResUsage.ru_stime)

/-- `void printSystemCpuTimeInSeconds()`. -/
def printSystemCpuTimeInSeconds (self : CppCpuMetrics) (r : Rusage) (o : OStream) :
    CppCpuMetrics × OStream :=
  let (s, v) := self.getSystemCpuTimeInSeconds r
  (s, ((o.put (Item.str "System CPU time(Seconds): ")).putDouble v).put (Item.chr '\n'))

/-- `void start()`. -/
def start (self : CppCpuMetrics) : CppCpuMetrics := self

/-- `void start(const std::string &descriptionStr)`. -/
def startWith (self : CppCpuMetrics) (descriptionStr : String) : CppCpuMetrics :=
  { self with m_descriptionStr := descriptionStr }

/-- `void stop()`; `r1` is the reading of the user-time query, `r2` that of the system-time
query that follows it. -/
def stop (self : CppCpuMetrics) (r1 r2 : Rusage) (o : OStream) : CppCpuMetrics × OStream :=
  let (s1, u) := self.getUserCpuTimeInSeconds r1
  let (s2, v) := s1.getSystemCpuTimeInSeconds r2
  let s3 := { s2 with m_endCpuTime := Double.add u v }
  (s3, (((((o.put (Item.str "CPU Time [ ")).put (Item.str s3.m_descriptionStr)).put
    (Item.str " ] : ")).putDouble s3.m_endCpuTime).put (Item.str " seconds")).put
    (Item.chr '\n'))

end CppCpuMetrics

/-! ## `class CppProgramMetrics` -/

/-- The data members of `CppProgramMetrics`. -/
structure CppProgramMetrics where
  elapsedObj : ElapsedTime
  cpuMetrics : CppCpuMetrics
  memMetrics : CppMemoryMetrics
deriving DecidableEq, Repr

namespace CppProgramMetrics

/-- The constructor `CppProgramMetrics()`: the members are default-constructed. -/
def new (uninitD : Double) (uninitR : Rusage) (now : ℤ) : CppProgramMetrics :=
  { elapsedObj := ElapsedTime.new uninitD now, cpuMetrics := CppCpuMetrics.new uninitR,
    memMetrics := {} }

/-- `void start(std::string metricsName)`. -/
def start (self : CppProgramMetrics) (metricsName : String) (now : ℤ) : CppProgramMetrics :=
  { self with elapsedObj := self.elapsedObj.startWith metricsName now }

/-- `void stop()`; `now` is the clock reading and `rUser`, `rSys`, `rMem` are the readings of
the three successive `getrusage` queries. -/
def stop (self : CppProgramMetrics) (now : ℤ) (rUser rSys rMem : Rusage) (o : OStream) :
    CppProgramMetrics × OStream :=
  let (e, o1) := self.elapsedObj.stop now o
  let (c1, o2) := self.cpuMetrics.printUserCpuTimeInSeconds rUser o1
  let (c2, o3) := c1.printSystemCpuTimeInSeconds rSys o2
  let o4 := self.memMetrics.printMemoryUsageInKb rMem o3
  ({ self with elapsedObj := e, cpuMetrics := c2 }, o4)

end CppProgramMetrics

/-! ## Sequences of operations on an `ElapsedTime` -/

/-- A call of a member function of `ElapsedTime`. -/
inductive Op where
  | start
  | startWith (s : String)
  | startAccumulate (s : String)
  | stop
  | stopAccumulate
  | printTime
deriving DecidableEq, Repr

/-- One call; `now` is the reading of the steady clock at the time of the call. -/
def step (c : ElapsedTime × OStream) (call : Op × ℤ) : ElapsedTime × OStream :=
  match call.1 with
  | Op.start => (c.1.start call.2, c.2)
  | Op.startWith s => (c.1.startWith s call.2, c.2)
  | Op.startAccumulate s => (c.1.startAccumulate s call.2, c.2)
  | Op.stop => c.1.stop call.2 c.2
  | Op.stopAccumulate => (c.1.stopAccumulate call.2, c.2)
  | Op.printTime => (c.1, c.1.printTime c.2)

/-- A sequence of calls, in order. -/
def run (c : ElapsedTime × OStream) (calls : List (Op × ℤ)) : ElapsedTime × OStream :=
  calls.foldl step c

/-- The calls of `N` accumulating measurements: `startAccumulate(label)` at the first
reading of each triple, `stopAccumulate()` at the second. -/
def accumulateCalls (ms : List (String × ℤ × ℤ)) : List (Op × ℤ) :=
  ms.flatMap fun m => [(Op.startAccumulate m.1, m.2.1), (Op.stopAccumulate, m.2.2)]

/-! ## Sequences of `start` calls on a `CppCpuMetrics` -/

/-- A sequence of calls of `start()` (`none`) and `start(descriptionStr)` (`some`), in
order. -/
def cpuStarts (c : CppCpuMetrics) (calls : List (Option String)) : CppCpuMetrics :=
  calls.foldl (fun c call =>
    match call with
    | none => c.start
    | some d => c.startWith d) c

/-! ## Facts about the rounding functions -/

theorem log2Fuel_eq (fuel n : Nat) (h : n ≤ fuel) : log2Fuel fuel n = Nat.log 2 n := by
  induction fuel generalizing n with
  | zero =>
    obtain rfl : n = 0 := by omega
    simp [log2Fuel]
  | succ k ih =>
    unfold log2Fuel
    split
    · rename_i h2
      rw [ih (n / 2) (by omega), Nat.log_of_one_lt_of_le (by norm_num) h2]
    · rename_i h2
      rw [Nat.log_of_lt (by omega)]

theorem nlog2_eq (n : Nat) : nlog2 n = Nat.log 2 n := log2Fuel_eq n n le_rfl

theorem clog2Fuel_eq (fuel n : Nat) (h : n ≤ fuel) : clog2Fuel fuel n = Nat.clog 2 n := by
  induction fuel generalizing n with
  | zero =>
    obtain rfl : n = 0 := by omega
    simp [clog2Fuel]
  | succ k ih =>
    unfold clog2Fuel
    split
    · rename_i h2
      rw [ih ((n + 1) / 2) (by omega), Nat.clog_of_two_le (by norm_num) h2]
      rfl
    · rename_i h2
      rw [Nat.clog_of_right_le_one (by omega)]

theorem nclog2_eq (n : Nat) : nclog2 n = Nat.clog 2 n := clog2Fuel_eq n n le_rfl

theorem ilog2_eq (a : ℚ) : ilog2 a = Int.log 2 a := by
  unfold ilog2 Int.log
  rw [nlog2_eq, nclog2_eq]

theorem zpow_ilog2_le {a : ℚ} (ha : 0 < a) : (2 : ℚ) ^ ilog2 a ≤ a := by
  rw [ilog2_eq]
  exact_mod_cast Int.zpow_log_le_self (b := 2) (by norm_num) ha

theorem lt_zpow_ilog2_succ (a : ℚ) : a < (2 : ℚ) ^ (ilog2 a + 1) := by
  rw [ilog2_eq]
  exact_mod_cast Int.lt_zpow_succ_log_self (b := 2) (by norm_num) a

theorem ilog2_mono {a b : ℚ} (ha : 0 < a) (hab : a ≤ b) : ilog2 a ≤ ilog2 b := by
  rw [ilog2_eq, ilog2_eq]
  exact Int.log_mono_right ha hab

/-- The binary exponent is determined by the binade. -/
theorem ilog2_eq_of_mem {a : ℚ} {e : ℤ} (h1 : (2 : ℚ) ^ e ≤ a) (h2 : a < (2 : ℚ) ^ (e + 1)) :
    ilog2 a = e := by
  have ha : 0 < a := lt_of_lt_of_le (by positivity) h1
  rw [ilog2_eq]
  apply le_antisymm
  · have := (Int.lt_zpow_iff_log_lt (b := 2) (by norm_num) ha (x := e + 1)).1
      (by exact_mod_cast h2)
    omega
  · exact (Int.zpow_le_iff_le_log (b := 2) (by norm_num) ha).1 (by exact_mod_cast h1)

theorem roundHalfEven_intCast (n : ℤ) : roundHalfEven (n : ℚ) = n := by
  simp [roundHalfEven]

theorem floor_le_roundHalfEven (x : ℚ) : ⌊x⌋ ≤ roundHalfEven x := by
  unfold roundHalfEven
  simp only
  split_ifs <;> omega

theorem roundHalfEven_le_floor_succ (x : ℚ) : roundHalfEven x ≤ ⌊x⌋ + 1 := by
  unfold roundHalfEven
  simp only
  split_ifs <;> omega

theorem roundHalfEven_sub_le (x : ℚ) : (roundHalfEven x : ℚ) - x ≤ 1 / 2 := by
  have h1 := Int.floor_le x
  have h2 := Int.lt_floor_add_one x
  unfold roundHalfEven
  simp only
  split_ifs with ha hb hc
  · linarith
  · push_cast; linarith
  · linarith
  · push_cast; linarith

theorem sub_roundHalfEven_le (x : ℚ) : x - (roundHalfEven x : ℚ) ≤ 1 / 2 := by
  have h1 := Int.floor_le x
  have h2 := Int.lt_floor_add_one x
  unfold roundHalfEven
  simp only
  split_ifs with ha hb hc
  · linarith
  · push_cast; linarith
  · linarith
  · push_cast; linarith

theorem roundHalfEven_mono {x y : ℚ} (h : x ≤ y) : roundHalfEven x ≤ roundHalfEven y := by
  rcases (Int.floor_mono h).lt_or_eq with hlt | heq
  · exact le_trans (roundHalfEven_le_floor_succ x) (le_trans hlt (floor_le_roundHalfEven y))
  · unfold roundHalfEven
    simp only
    rw [heq]
    have hxy : x - (⌊y⌋ : ℚ) ≤ y - (⌊y⌋ : ℚ) := by linarith
    split_ifs <;> first | omega | (exfalso; linarith)

/-- A rational within half a unit (exclusive) of an integer rounds to that integer. -/
theorem roundHalfEven_eq_of_abs_lt {x : ℚ} {n : ℤ} (h : |x - n| < 1 / 2) :
    roundHalfEven x = n := by
  rw [abs_lt] at h
  obtain ⟨h1, h2⟩ := h
  have e1 := roundHalfEven_sub_le x
  have e2 := sub_roundHalfEven_le x
  have l1 : ((roundHalfEven x - n : ℤ) : ℚ) < 1 := by push_cast; linarith
  have l2 : (-1 : ℚ) < ((roundHalfEven x - n : ℤ) : ℚ) := by push_cast; linarith
  have l1' : roundHalfEven x - n < 1 := by exact_mod_cast l1
  have l2' : -1 < roundHalfEven x - n := by exact_mod_cast l2
  omega

theorem quantum_pos (a : ℚ) : 0 < quantum a := by
  unfold quantum
  positivity

theorem roundPos_nonneg {a : ℚ} (ha : 0 < a) : 0 ≤ roundPos a := by
  unfold roundPos
  have hq := quantum_pos a
  have h0 : (0 : ℤ) ≤ roundHalfEven (a / quantum a) := by
    have := roundHalfEven_mono (x := ((0 : ℤ) : ℚ)) (y := a / quantum a)
      (by simpa using (div_pos ha hq).le)
    rwa [roundHalfEven_intCast] at this
  have : (0 : ℚ) ≤ (roundHalfEven (a / quantum a) : ℚ) := by exact_mod_cast h0
  positivity

/-- The rounding error is at most half the grid spacing. -/
theorem abs_roundPos_sub_le (a : ℚ) : |roundPos a - a| ≤ quantum a / 2 := by
  have hq := quantum_pos a
  have e1 := roundHalfEven_sub_le (a / quantum a)
  have e2 := sub_roundHalfEven_le (a / quantum a)
  have hdiv : a / quantum a * quantum a = a := div_mul_cancel₀ a hq.ne'
  unfold roundPos
  rw [abs_le]
  constructor <;> nlinarith

/-- Rounding never leaves the closed binade of its argument (upper end). -/
theorem roundPos_le_zpow (a : ℚ) :
    roundPos a ≤ (2 : ℚ) ^ (max (ilog2 a) (-1022) + 1) := by
  have hq := quantum_pos a
  have hlt : a / quantum a ≤ (2 : ℚ) ^ (53 : ℕ) := by
    rw [div_le_iff₀ hq]
    have h1 := (lt_zpow_ilog2_succ a).le
    have h2 : (2 : ℚ) ^ (ilog2 a + 1) ≤ (2 : ℚ) ^ (max (ilog2 a) (-1022) + 1) :=
      zpow_le_zpow_right₀ (by norm_num) (by omega)
    have h3 : (2 : ℚ) ^ (53 : ℕ) * quantum a = (2 : ℚ) ^ (max (ilog2 a) (-1022) + 1) := by
      unfold quantum
      rw [← zpow_natCast, ← zpow_add₀ (by norm_num)]
      congr 1
      push_cast
      ring
    linarith
  have hr : roundHalfEven (a / quantum a) ≤ 2 ^ (53 : ℕ) := by
    have := roundHalfEven_mono hlt
    have h2 : ((2 : ℚ) ^ (53 : ℕ)) = (((2 ^ (53 : ℕ) : ℤ)) : ℚ) := by norm_num
    rw [h2, roundHalfEven_intCast] at this
    exact this
  have hr' : (roundHalfEven (a / quantum a) : ℚ) ≤ (2 : ℚ) ^ (53 : ℕ) := by exact_mod_cast hr
  unfold roundPos
  calc (roundHalfEven (a / quantum a) : ℚ) * quantum a
      ≤ (2 : ℚ) ^ (53 : ℕ) * quantum a := mul_le_mul_of_nonneg_right hr' hq.le
    _ = (2 : ℚ) ^ (max (ilog2 a) (-1022) + 1) := by
      unfold quantum
      rw [← zpow_natCast, ← zpow_add₀ (by norm_num)]
      congr 1
      push_cast
      ring

/-- In the normal range rounding never leaves the closed binade of its argument (lower
end). -/
theorem zpow_le_roundPos {a : ℚ} (ha : 0 < a) (hn : -1022 ≤ ilog2 a) :
    (2 : ℚ) ^ ilog2 a ≤ roundPos a := by
  have hq := quantum_pos a
  have hE : max (ilog2 a) (-1022) = ilog2 a := max_eq_left hn
  have hqe : quantum a = (2 : ℚ) ^ (ilog2 a - 52) := by unfold quantum; rw [hE]
  have h3 : (2 : ℚ) ^ (52 : ℕ) * quantum a = (2 : ℚ) ^ ilog2 a := by
    rw [hqe, ← zpow_natCast, ← zpow_add₀ (by norm_num)]
    congr 1
    push_cast
    ring
  have hge : (2 : ℚ) ^ (52 : ℕ) ≤ a / quantum a := by
    rw [le_div_iff₀ hq, h3]
    exact zpow_ilog2_le ha
  have hr : 2 ^ (52 : ℕ) ≤ roundHalfEven (a / quantum a) := by
    have := roundHalfEven_mono hge
    have h2 : ((2 : ℚ) ^ (52 : ℕ)) = (((2 ^ (52 : ℕ) : ℤ)) : ℚ) := by norm_num
    rw [h2, roundHalfEven_intCast] at this
    exact this
  have hr' : (2 : ℚ) ^ (52 : ℕ) ≤ (roundHalfEven (a / quantum a) : ℚ) := by exact_mod_cast hr
  unfold roundPos
  calc (2 : ℚ) ^ ilog2 a = (2 : ℚ) ^ (52 : ℕ) * quantum a := h3.symm
    _ ≤ (roundHalfEven (a / quantum a) : ℚ) * quantum a :=
      mul_le_mul_of_nonneg_right hr' hq.le

/-- Rounding to the binary64 grid is monotone. -/
theorem roundPos_mono {a b : ℚ} (ha : 0 < a) (hab : a ≤ b) : roundPos a ≤ roundPos b := by
  have hb : 0 < b := lt_of_lt_of_le ha hab
  have hlog := ilog2_mono ha hab
  by_cases hE : max (ilog2 a) (-1022) = max (ilog2 b) (-1022)
  · have hq : quantum a = quantum b := by unfold quantum; rw [hE]
    unfold roundPos
    rw [hq]
    have hqb := quantum_pos b
    have : roundHalfEven (a / quantum b) ≤ roundHalfEven (b / quantum b) :=
      roundHalfEven_mono (div_le_div_of_nonneg_right hab hqb.le)
    have h' : (roundHalfEven (a / quantum b) : ℚ) ≤ (roundHalfEven (b / quantum b) : ℚ) := by
      exact_mod_cast this
    exact mul_le_mul_of_nonneg_right h' hqb.le
  · have hlt : max (ilog2 a) (-1022) + 1 ≤ ilog2 b := by omega
    have hn : -1022 ≤ ilog2 b := by omega
    calc roundPos a ≤ (2 : ℚ) ^ (max (ilog2 a) (-1022) + 1) := roundPos_le_zpow a
      _ ≤ (2 : ℚ) ^ ilog2 b := zpow_le_zpow_right₀ (by norm_num) hlt
      _ ≤ roundPos b := zpow_le_roundPos hb hn

/-- A certificate for a rounding in the normal range: a rational in the binade of exponent
`e` that is within half a grid step (exclusive) of the grid point `M * 2 ^ (e - 52)` rounds
to that grid point. -/
theorem roundPos_eq_of_close {a : ℚ} {e M : ℤ} (he : -1022 ≤ e)
    (h1 : (2 : ℚ) ^ e ≤ a) (h2 : a < (2 : ℚ) ^ (e + 1))
    (hM : |a / (2 : ℚ) ^ (e - 52) - M| < 1 / 2) :
    roundPos a = M * (2 : ℚ) ^ (e - 52) := by
  have hlog := ilog2_eq_of_mem h1 h2
  have hq : quantum a = (2 : ℚ) ^ (e - 52) := by
    unfold quantum
    rw [hlog, max_eq_left he]
  unfold roundPos
  rw [hq, roundHalfEven_eq_of_abs_lt hM]

/-- Every rational `n / 2 ^ k` with a numerator below `2 ^ 53` and `k ≤ 1074` lies on the
binary64 grid: rounding leaves it unchanged. -/
theorem roundPos_dyadic {n k : ℕ} (hn0 : 0 < n) (hn : n < 2 ^ 53) (hk : k ≤ 1074) :
    roundPos ((n : ℚ) / 2 ^ k) = (n : ℚ) / 2 ^ k := by
  set a : ℚ := (n : ℚ) / 2 ^ k with ha_def
  have ha : 0 < a := by positivity
  have hq := quantum_pos a
  -- the exponent of the grid step is at most `-k`
  have hj : max (ilog2 a) (-1022) - 52 ≤ -(k : ℤ) := by
    rcases le_total (ilog2 a) (-1022) with h | h
    · rw [max_eq_right h]; omega
    · rw [max_eq_left h]
      have h1 := zpow_ilog2_le ha
      have h2 : a < (2 : ℚ) ^ ((53 : ℤ) - k) := by
        rw [ha_def, zpow_sub₀ (by norm_num), zpow_natCast]
        apply div_lt_div_of_pos_right _ (by positivity)
        exact_mod_cast hn
      have h3 : (2 : ℚ) ^ ilog2 a < (2 : ℚ) ^ ((53 : ℤ) - k) := lt_of_le_of_lt h1 h2
      have := (zpow_lt_zpow_iff_right₀ (by norm_num : (1 : ℚ) < 2)).1 h3
      omega
  obtain ⟨m, hm⟩ : ∃ m : ℕ, (m : ℤ) = -(k : ℤ) - (max (ilog2 a) (-1022) - 52) :=
    ⟨(-(k : ℤ) - (max (ilog2 a) (-1022) - 52)).toNat, by omega⟩
  have hdiv : a / quantum a = ((n * 2 ^ m : ℤ) : ℚ) := by
    rw [div_eq_iff hq.ne']
    unfold quantum
    push_cast
    rw [ha_def, ← zpow_natCast (2 : ℚ) m, hm, mul_assoc, ← zpow_add₀ (by norm_num)]
    rw [show -(k : ℤ) - (max (ilog2 a) (-1022) - 52) + (max (ilog2 a) (-1022) - 52) = -(k : ℤ)
      by ring]
    rw [zpow_neg, zpow_natCast]
    ring
  unfold roundPos
  rw [hdiv, roundHalfEven_intCast, ← hdiv, div_mul_cancel₀ a hq.ne']

namespace Double

theorem rne_zero : rne 0 = fin 0 := by simp [rne]

theorem rne_of_pos {x : ℚ} (hx : 0 < x) (hlt : roundPos x < 2 ^ (1024 : ℕ)) :
    rne x = fin (roundPos x) := by
  unfold rne
  rw [if_neg hx.ne', if_pos hx, if_pos hlt]

theorem rne_of_neg {x : ℚ} (hx : x < 0) (hlt : roundPos (-x) < 2 ^ (1024 : ℕ)) :
    rne x = fin (-roundPos (-x)) := by
  unfold rne
  rw [if_neg hx.ne, if_neg (not_lt.2 hx.le), if_pos hlt]

/-- Below `2 ^ 1023` nothing overflows. -/
theorem roundPos_lt_of_lt {x : ℚ} (hx : 0 < x) (hlt : x < 2 ^ (1023 : ℕ)) :
    roundPos x < 2 ^ (1024 : ℕ) := by
  have h1 := zpow_ilog2_le hx
  have h2 : (2 : ℚ) ^ ilog2 x < (2 : ℚ) ^ ((1023 : ℕ) : ℤ) := by
    rw [zpow_natCast]; exact lt_of_le_of_lt h1 hlt
  have h3 := (zpow_lt_zpow_iff_right₀ (by norm_num : (1 : ℚ) < 2)).1 h2
  have h4 : max (ilog2 x) (-1022) + 1 ≤ ((1023 : ℕ) : ℤ) := by
    push_cast at h3 ⊢
    omega
  calc roundPos x ≤ (2 : ℚ) ^ (max (ilog2 x) (-1022) + 1) := roundPos_le_zpow x
    _ ≤ (2 : ℚ) ^ ((1023 : ℕ) : ℤ) := zpow_le_zpow_right₀ (by norm_num) h4
    _ = (2 : ℚ) ^ (1023 : ℕ) := zpow_natCast 2 1023
    _ < 2 ^ (1024 : ℕ) := by norm_num

theorem rne_of_pos_lt {x : ℚ} (hx : 0 < x) (hlt : x < 2 ^ (1023 : ℕ)) :
    rne x = fin (roundPos x) :=
  rne_of_pos hx (roundPos_lt_of_lt hx hlt)

/-- Dyadic rationals with a numerator below `2 ^ 53` are representable. -/
theorem rne_dyadic {n k : ℕ} (hn : n < 2 ^ 53) (hk : k ≤ 1074) :
    rne ((n : ℚ) / 2 ^ k) = fin ((n : ℚ) / 2 ^ k) := by
  rcases Nat.eq_zero_or_pos n with h0 | h0
  · subst h0; simp [rne]
  · have hpos : (0 : ℚ) < (n : ℚ) / 2 ^ k := by positivity
    have hr := roundPos_dyadic h0 hn hk
    have hlt : (n : ℚ) / 2 ^ k < 2 ^ (1024 : ℕ) := by
      have h1 : (n : ℚ) / 2 ^ k ≤ n := div_le_self (by positivity) (one_le_pow₀ (by norm_num))
      have h2 : (n : ℚ) < 2 ^ (53 : ℕ) := by exact_mod_cast hn
      have h3 : (2 : ℚ) ^ (53 : ℕ) < 2 ^ (1024 : ℕ) := by norm_num
      linarith
    rw [rne_of_pos hpos (by rw [hr]; exact hlt), hr]

/-- Integers of magnitude below `2 ^ 53` convert to `double` exactly. -/
theorem ofInt_exact {n : ℤ} (h1 : -(2 ^ 53) < n) (h2 : n < 2 ^ 53) : ofInt n = fin n := by
  unfold ofInt
  rcases lt_trichotomy n 0 with hneg | hz | hpos
  · obtain ⟨m, hm⟩ : ∃ m : ℕ, (m : ℤ) = -n := ⟨(-n).toNat, by omega⟩
    have hm53 : m < 2 ^ 53 := by omega
    have hm0 : 0 < m := by omega
    have hq : ((-n : ℤ) : ℚ) = (m : ℚ) := by rw [← hm]; simp
    have hr : roundPos (-(n : ℚ)) = (m : ℚ) := by
      have := roundPos_dyadic (k := 0) hm0 hm53 (by norm_num)
      simp only [pow_zero, div_one] at this
      rw [← Int.cast_neg, hq]
      exact this
    have hnq : ((n : ℤ) : ℚ) < 0 := by exact_mod_cast hneg
    have hlt : (m : ℚ) < 2 ^ (1024 : ℕ) := by
      have h2' : (m : ℚ) < 2 ^ (53 : ℕ) := by exact_mod_cast hm53
      have h3 : (2 : ℚ) ^ (53 : ℕ) < 2 ^ (1024 : ℕ) := by norm_num
      linarith
    rw [rne_of_neg hnq (by rw [hr]; exact hlt), hr, ← hq]
    simp
  · subst hz; simp [rne]
  · obtain ⟨m, hm⟩ : ∃ m : ℕ, (m : ℤ) = n := ⟨n.toNat, by omega⟩
    have hm53 : m < 2 ^ 53 := by omega
    have := rne_dyadic (k := 0) hm53 (by norm_num)
    simp only [pow_zero, div_one] at this
    rw [← hm]
    simpa using this

/-- Rounding keeps the sign of a non-negative exact result. -/
theorem le_zero_rne {x : ℚ} (hx : 0 ≤ x) : le zero (rne x) := by
  rcases hx.eq_or_lt with h0 | hpos
  · subst h0; simp [rne, le, zero]
  · unfold rne
    rw [if_neg hpos.ne', if_pos hpos]
    split_ifs
    · simpa [le, zero] using roundPos_nonneg hpos
    · simp [le, zero]

/-- Rounding is monotone on the non-negative rationals. -/
theorem rne_mono {x y : ℚ} (hx : 0 ≤ x) (hxy : x ≤ y) : le (rne x) (rne y) := by
  rcases hx.eq_or_lt with h0 | hpos
  · subst h0
    rw [rne_zero]
    exact le_zero_rne hxy
  · have hy : 0 < y := lt_of_lt_of_le hpos hxy
    have hm := roundPos_mono hpos hxy
    unfold rne
    rw [if_neg hpos.ne', if_pos hpos, if_neg hy.ne', if_pos hy]
    split_ifs with h1 h2 h2
    · simpa [le] using hm
    · simp [le]
    · exact absurd (lt_of_le_of_lt hm h2) h1
    · simp [le]

theorem le_zero_add {x y : Double} (hx : le zero x) (hy : le zero y) : le zero (add x y) := by
  cases x with
  | fin a =>
    cases y with
    | fin b =>
      simp only [le, zero] at hx hy
      simp only [add]
      exact le_zero_rne (add_nonneg hx hy)
    | pinf => simp [le, zero, add]
    | ninf => simp [le, zero] at hy
    | nan => simp [le, zero] at hy
  | pinf =>
    cases y with
    | fin b => simp [le, zero, add]
    | pinf => simp [le, zero, add]
    | ninf => simp [le, zero] at hy
    | nan => simp [le, zero] at hy
  | ninf => simp [le, zero] at hx
  | nan => simp [le, zero] at hx

theorem le_zero_div_fin {x : Double} {b : ℚ} (hx : le zero x) (hb : 0 < b) :
    le zero (div x (fin b)) := by
  cases x with
  | fin a =>
    simp only [le, zero, div] at hx ⊢
    rw [if_neg hb.ne']
    exact le_zero_rne (div_nonneg hx hb.le)
  | pinf =>
    simp only [div]
    rw [if_pos hb.le]
    trivial
  | ninf => simp [le, zero] at hx
  | nan => simp [le, zero] at hx

end Double

theorem le_ilog2_of_zpow_le {a : ℚ} {e : ℤ} (h : (2 : ℚ) ^ e ≤ a) : e ≤ ilog2 a := by
  have h2 := lt_of_le_of_lt h (lt_zpow_ilog2_succ a)
  have := (zpow_lt_zpow_iff_right₀ (by norm_num : (1 : ℚ) < 2)).1 h2
  omega

theorem ilog2_lt_of_lt_zpow {a : ℚ} {e : ℤ} (ha : 0 < a) (h : a < (2 : ℚ) ^ e) :
    ilog2 a < e := by
  have h2 := lt_of_le_of_lt (zpow_ilog2_le ha) h
  exact (zpow_lt_zpow_iff_right₀ (by norm_num : (1 : ℚ) < 2)).1 h2

theorem zpow_shift (j : ℤ) (k : ℕ) : (2 : ℚ) ^ (j + k) = 2 ^ k * (2 : ℚ) ^ j := by
  rw [zpow_add₀ (by norm_num), zpow_natCast, mul_comm]

/-- The grid spacing below `2 ^ e`. -/
theorem quantum_le_of_lt {a : ℚ} {e : ℤ} (ha : 0 < a) (h : a < (2 : ℚ) ^ e)
    (he : -1021 ≤ e) : quantum a ≤ (2 : ℚ) ^ (e - 53) := by
  have := ilog2_lt_of_lt_zpow ha h
  unfold quantum
  apply zpow_le_zpow_right₀ (by norm_num)
  omega

namespace Double

theorem rne_eq_fin_toRat {x : ℚ} (hx : 0 ≤ x) (hlt : x < 2 ^ (1023 : ℕ)) :
    rne x = fin (rne x).toRat := by
  rcases hx.eq_or_lt with h0 | hpos
  · subst h0; simp [rne, toRat]
  · rw [rne_of_pos_lt hpos hlt]; rfl

theorem toRat_rne_of_pos {x : ℚ} (hx : 0 < x) (hlt : x < 2 ^ (1023 : ℕ)) :
    (rne x).toRat = roundPos x := by
  rw [rne_of_pos_lt hx hlt]; rfl

theorem toRat_rne_nonneg {x : ℚ} (hx : 0 ≤ x) : 0 ≤ (rne x).toRat := by
  have h := le_zero_rne hx
  cases hr : rne x <;> simp only [hr, le, zero, toRat] at h ⊢ <;> first | exact h | exact le_rfl

theorem toRat_rne_mono {x y : ℚ} (hx : 0 ≤ x) (hxy : x ≤ y) (hy : y < 2 ^ (1023 : ℕ)) :
    (rne x).toRat ≤ (rne y).toRat := by
  have h := rne_mono hx hxy
  rw [rne_eq_fin_toRat hx (lt_of_le_of_lt hxy hy), rne_eq_fin_toRat (le_trans hx hxy) hy] at h
  exact h

/-- The absolute rounding error below `2 ^ e`. -/
theorem abs_toRat_rne_sub_le {x : ℚ} {e : ℤ} (hx : 0 ≤ x) (h : x < (2 : ℚ) ^ e)
    (he : -1021 ≤ e) (he' : e ≤ 1023) : |(rne x).toRat - x| ≤ (2 : ℚ) ^ (e - 54) := by
  rcases hx.eq_or_lt with h0 | hpos
  · subst h0
    simp only [rne_zero, toRat, sub_zero, abs_zero]
    positivity
  · have hlt : x < 2 ^ (1023 : ℕ) := by
      have : (2 : ℚ) ^ e ≤ (2 : ℚ) ^ ((1023 : ℕ) : ℤ) :=
        zpow_le_zpow_right₀ (by norm_num) (by push_cast; omega)
      rw [zpow_natCast] at this
      linarith
    rw [toRat_rne_of_pos hpos hlt]
    have h1 := abs_roundPos_sub_le x
    have h2 := quantum_le_of_lt hpos h he
    have h3 : (2 : ℚ) ^ (e - 53) / 2 = (2 : ℚ) ^ (e - 54) := by
      have : e - 53 = e - 54 + ((1 : ℕ) : ℤ) := by push_cast; ring
      rw [this, zpow_shift]
      ring
    linarith

theorem toRat_rne_dyadic {n k : ℕ} (hn : n < 2 ^ 53) (hk : k ≤ 1074) :
    (rne ((n : ℚ) / 2 ^ k)).toRat = (n : ℚ) / 2 ^ k := by
  rw [rne_dyadic hn hk]; rfl

/-- Absorption: added to the `double` of an integer of at least `2 ^ 53`, a non-negative
rational below one is rounded away. -/
theorem toRat_rne_absorb {n : ℤ} {f : ℚ} (h1 : 2 ^ 53 ≤ n) (h2 : n < 2 ^ 63) (hf0 : 0 ≤ f)
    (hf1 : f < 1) : (rne ((rne (n : ℚ)).toRat + f)).toRat = (rne (n : ℚ)).toRat := by
  have ha1 : (2 : ℚ) ^ ((53 : ℕ) : ℤ) ≤ (n : ℚ) := by
    rw [zpow_natCast]; exact_mod_cast h1
  have ha2 : (n : ℚ) < (2 : ℚ) ^ ((63 : ℕ) : ℤ) := by
    rw [zpow_natCast]; exact_mod_cast h2
  have ha : (0 : ℚ) < n := lt_of_lt_of_le (by positivity) ha1
  have hE1 : (53 : ℤ) ≤ ilog2 (n : ℚ) := by simpa using le_ilog2_of_zpow_le ha1
  have hE2 : ilog2 (n : ℚ) < 63 := by simpa using ilog2_lt_of_lt_zpow ha ha2
  have hlt : (n : ℚ) < 2 ^ (1023 : ℕ) := by
    have : (2 : ℚ) ^ ((63 : ℕ) : ℤ) < 2 ^ (1023 : ℕ) := by norm_num
    linarith
  rw [toRat_rne_of_pos ha hlt]
  -- the grid around `n`
  set E := ilog2 (n : ℚ) with hE
  have hmax : max E (-1022) = E := max_eq_left (by omega)
  have hq : quantum (n : ℚ) = (2 : ℚ) ^ (E - 52) := by unfold quantum; rw [← hE, hmax]
  set q : ℚ := (2 : ℚ) ^ (E - 52) with hqdef
  have hqpos : 0 < q := by positivity
  have hq2 : 2 ≤ q := by
    have : (2 : ℚ) ^ ((1 : ℕ) : ℤ) ≤ (2 : ℚ) ^ (E - 52) :=
      zpow_le_zpow_right₀ (by norm_num) (by push_cast; omega)
    simpa using this
  have p52 : (2 : ℚ) ^ E = 2 ^ (52 : ℕ) * q := by
    rw [hqdef, ← zpow_shift]; congr 1; push_cast; ring
  have p53 : (2 : ℚ) ^ (E + 1) = 2 ^ (53 : ℕ) * q := by
    rw [hqdef, ← zpow_shift]; congr 1; push_cast; ring
  have p54 : (2 : ℚ) ^ (E + 1 + 1) = 2 ^ (54 : ℕ) * q := by
    rw [hqdef, ← zpow_shift]; congr 1; push_cast; ring
  have pq2 : (2 : ℚ) ^ (E + 1 - 52) = 2 * q := by
    have : E + 1 - 52 = E - 52 + ((1 : ℕ) : ℤ) := by push_cast; ring
    rw [this, zpow_shift]; norm_num
  -- the rounded integer is `M * q` for an integer mantissa `M`
  obtain ⟨M, hM⟩ : ∃ M : ℤ, roundPos (n : ℚ) = M * q :=
    ⟨roundHalfEven ((n : ℚ) / quantum (n : ℚ)), by unfold roundPos; rw [hq]⟩
  have hlo : (2 : ℚ) ^ E ≤ roundPos (n : ℚ) := zpow_le_roundPos ha (by omega)
  have hhi : roundPos (n : ℚ) ≤ (2 : ℚ) ^ (E + 1) := by
    have := roundPos_le_zpow (n : ℚ)
    rwa [← hE, hmax] at this
  have hsum_pos : 0 < roundPos (n : ℚ) + f := by
    have : (0 : ℚ) < (2 : ℚ) ^ E := by positivity
    linarith
  have hsum_lt : roundPos (n : ℚ) + f < 2 ^ (1023 : ℕ) := by
    have h64 : (2 : ℚ) ^ (E + 1) ≤ (2 : ℚ) ^ ((63 : ℕ) : ℤ) :=
      zpow_le_zpow_right₀ (by norm_num) (by push_cast; omega)
    have : (2 : ℚ) ^ ((63 : ℕ) : ℤ) + 1 < 2 ^ (1023 : ℕ) := by norm_num
    linarith
  rw [toRat_rne_of_pos hsum_pos hsum_lt]
  have hMle : M ≤ 2 ^ 53 := by
    have : (M : ℚ) * q ≤ 2 ^ (53 : ℕ) * q := by rw [← hM, ← p53]; exact hhi
    have := le_of_mul_le_mul_right this hqpos
    exact_mod_cast this
  rcases hMle.lt_or_eq with hMlt | hMeq
  · -- the sum stays in the binade of exponent `E`
    have hM1 : (M : ℚ) + 1 ≤ 2 ^ (53 : ℕ) := by exact_mod_cast hMlt
    rw [hM]
    apply roundPos_eq_of_close (e := E) (M := M) (by omega)
    · rw [← hM]; linarith
    · rw [p53]; nlinarith
    · rw [← hqdef, add_div, mul_div_assoc, div_self hqpos.ne', mul_one, add_sub_cancel_left,
        abs_of_nonneg (div_nonneg hf0 hqpos.le), div_lt_iff₀ hqpos]
      linarith
  · -- the integer was rounded up to the next power of two
    have hS : roundPos (n : ℚ) = (2 : ℚ) ^ (E + 1) := by
      rw [hM, hMeq, p53]; norm_num
    have hres : roundPos (roundPos (n : ℚ) + f) =
        ((2 ^ 52 : ℤ) : ℚ) * (2 : ℚ) ^ (E + 1 - 52) := by
      apply roundPos_eq_of_close (e := E + 1) (M := 2 ^ 52) (by omega)
      · rw [hS]; linarith
      · rw [hS, p54, p53]; nlinarith
      · rw [pq2, hS, p53]
        have h2q : (0 : ℚ) < 2 * q := by positivity
        have : (2 ^ (53 : ℕ) * q + f) / (2 * q) - ((2 ^ 52 : ℤ) : ℚ) = f / (2 * q) := by
          field_simp
          ring
        rw [this, abs_of_nonneg (div_nonneg hf0 h2q.le), div_lt_iff₀ h2q]
        linarith
    rw [hres, hS, pq2, p53]
    push_cast
    ring

end Double

/-! ## The elapsed-time clock -/

theorem wrap64_eq {n : ℤ} (h1 : -(2 ^ 63) ≤ n) (h2 : n < 2 ^ 63) : wrap64 n = n := by
  unfold wrap64
  omega

theorem timeTaken_eq {b e : ℤ} (h1 : -(2 ^ 63) ≤ e - b) (h2 : e - b < 2 ^ 63) :
    timeTaken b e = toSeconds (e - b) := by
  unfold timeTaken
  rw [wrap64_eq h1 h2]

theorem ofInt_zero : Double.ofInt 0 = Double.fin 0 := by
  simp [Double.ofInt, Double.rne]

/-- Below `2 ^ 53` nanoseconds the conversion to seconds rounds once: it yields the
`double` nearest to the exact quotient. -/
theorem toSeconds_eq_rne {n : ℤ} (h1 : -(2 ^ 53) < n) (h2 : n < 2 ^ 53) :
    toSeconds n = Double.rne ((n : ℚ) / 1000000000) := by
  unfold toSeconds
  rw [Double.ofInt_exact h1 h2, Double.ofInt_exact (by norm_num) (by norm_num)]
  simp [Double.div]

/-- C2: `start()` sets `m_elapsedTime` to zero and `begin` to the clock reading from any
prior state, leaving the label (and `end`) unchanged; `start(label)` yields the same state
except that the label is the argument. -/
theorem C2_start_resets (s : ElapsedTime) (now : ℤ) (label : String) :
    s.start now =
        { m_startMsg := s.m_startMsg, begin := now, end_ := s.end_,
          m_elapsedTime := Double.fin 0 } ∧
      s.startWith label now =
        { m_startMsg := label, begin := now, end_ := s.end_, m_elapsedTime := Double.fin 0 } ∧
      s.startWith label now = { s.start now with m_startMsg := label } := by
  simp [ElapsedTime.start, ElapsedTime.startWith, ofInt_zero]

/-- C3: `startAccumulate(s)` sets the label to `s` and `begin` to the clock reading and
leaves `m_elapsedTime` (and `end`) exactly as before the call. -/
theorem C3_startAccumulate_keeps_total (st : ElapsedTime) (s : String) (now : ℤ) :
    st.startAccumulate s now =
        { m_startMsg := s, begin := now, end_ := st.end_, m_elapsedTime := st.m_elapsedTime } ∧
      (st.startAccumulate s now).m_elapsedTime = st.m_elapsedTime := by
  simp [ElapsedTime.startAccumulate]

/-- C4: `stop()` on a state with label `L`, start instant `b` and accumulator `a`, at a
clock reading `now` whose distance from `b` fits the 64-bit nanosecond count, emits exactly
one line `Elapsed time[L](seconds): v` in fixed notation, where `v` is the interval
`now - b` in seconds (not the total), and leaves the accumulator at `a + v` with the label
and `begin` unchanged.  Below `2 ^ 53` nanoseconds `v` is the `double` nearest to the exact
`(now - b) / 10 ^ 9`. -/
theorem C4_stop_reports_interval (L : String) (b e0 now : ℤ) (a : Double) (o : OStream)
    (h1 : -(2 ^ 63) ≤ now - b) (h2 : now - b < 2 ^ 63) :
    ElapsedTime.stop { m_startMsg := L, begin := b, end_ := e0, m_elapsedTime := a } now o =
        ({ m_startMsg := L, begin := b, end_ := now,
           m_elapsedTime := Double.add a (toSeconds (now - b)) },
         { fixed := true,
           items := o.items ++ [Item.str "Elapsed time[", Item.str L, Item.str "](seconds): ",
             Item.dbl true (toSeconds (now - b)), Item.chr '\n'] }) ∧
      lines [Item.str "Elapsed time[", Item.str L, Item.str "](seconds): ",
          Item.dbl true (toSeconds (now - b)), Item.chr '\n'] =
        [[Item.str "Elapsed time[", Item.str L, Item.str "](seconds): ",
          Item.dbl true (toSeconds (now - b))]] ∧
      (-(2 ^ 53) < now - b → now - b < 2 ^ 53 →
        toSeconds (now - b) = Double.rne (((now - b : ℤ) : ℚ) / 1000000000)) := by
  refine ⟨?_, ?_, fun h3 h4 => toSeconds_eq_rne h3 h4⟩
  · simp [ElapsedTime.stop, timeTaken_eq h1 h2, OStream.put, OStream.putDouble,
      OStream.setFixed]
  · simp [lines, linesAux, Item.isNewline]

/-- Scenario A: `start("Demo")`, then `stop()` 1000 microseconds later, reports `0.001`
(the `double` nearest to `1/1000`) and leaves that value in the accumulator. -/
theorem C4_stop_scenarioA :
    ElapsedTime.stop (ElapsedTime.startWith (ElapsedTime.new Double.nan 0) "Demo" 5000) 1005000
        { fixed := false, items := [] } =
      ({ m_startMsg := "Demo", begin := 5000, end_ := 1005000,
         m_elapsedTime := Double.rne (1 / 1000) },
       { fixed := true,
         items := [Item.str "Elapsed time[", Item.str "Demo", Item.str "](seconds): ",
           Item.dbl true (Double.rne (1 / 1000)), Item.chr '\n'] }) := by
  have h := C4_stop_reports_interval "Demo" 5000 0 1005000 (Double.fin 0)
    { fixed := false, items := [] } (by norm_num) (by norm_num)
  have hv := h.2.2 (by norm_num) (by norm_num)
  have hval : Double.rne ((((1005000 - 5000 : ℤ)) : ℚ) / 1000000000) =
      Double.rne (1 / 1000) := by
    norm_num
  have hadd : Double.add (Double.fin 0) (Double.rne (1 / 1000)) = Double.rne (1 / 1000) := by
    decide!
  have hst : ElapsedTime.startWith (ElapsedTime.new Double.nan 0) "Demo" 5000 =
      { m_startMsg := "Demo", begin := 5000, end_ := 0, m_elapsedTime := Double.fin 0 } := by
    simp [ElapsedTime.startWith, ElapsedTime.start, ElapsedTime.new, ofInt_zero]
  rw [hst, h.1, hv, hval, hadd]
  simp

/-- C5: `stopAccumulate()` leaves the clock in exactly the state `stop()` leaves for the same
state and reading (accumulator increased by `timeTaken`, `end` set to the reading, label and
`begin` unchanged) and inserts nothing into the output. -/
theorem C5_stopAccumulate_is_silent_stop (s : ElapsedTime) (now : ℤ) (o : OStream) :
    s.stopAccumulate now = (s.stop now o).1 ∧
      s.stopAccumulate now =
        { m_startMsg := s.m_startMsg, begin := s.begin, end_ := now,
          m_elapsedTime := Double.add s.m_elapsedTime (timeTaken s.begin now) } ∧
      step (s, o) (Op.stopAccumulate, now) = ((step (s, o) (Op.stop, now)).1, o) := by
  simp [ElapsedTime.stopAccumulate, ElapsedTime.stop, step]

/-! ## The memory and CPU probes and the facade -/

theorem getLast?_cons_getD {α : Type} (d c : α) (l : List α) :
    ((d :: l).getLast?).getD c = (l.getLast?).getD d := by
  cases l with
  | nil => simp
  | cons x xs =>
    rw [List.getLast?_cons_cons, List.getLast?_eq_getLast _ (List.cons_ne_nil x xs)]
    rfl

theorem cpuStarts_descriptionStr (c : CppCpuMetrics) (calls : List (Option String)) :
    (cpuStarts c calls).m_descriptionStr =
      ((calls.filterMap id).getLast?).getD c.m_descriptionStr := by
  induction calls generalizing c with
  | nil => simp [cpuStarts]
  | cons call rest ih =>
    have hstep : cpuStarts c (call :: rest) =
        cpuStarts (match call with
          | none => c.start
          | some d => c.startWith d) rest := by
      simp [cpuStarts]
    rw [hstep, ih]
    cases call with
    | none => simp [CppCpuMetrics.start]
    | some d =>
      have hl : List.filterMap id (some d :: rest) = d :: List.filterMap id rest := by simp
      rw [hl, getLast?_cons_getD]
      rfl

/-- C7: for a reported `ru_maxrss` of `k` kilobytes with `k * 1024 ≤ 2 ^ 63 - 1`,
`getPeakMemoryUsageInBytes()` returns exactly `k * 1024` and `printMemoryUsageInKb()` emits
`Memory usage(KB): ` followed by the integer `k` and `std::endl`. -/
theorem C7_peak_memory_roundtrip (m : CppMemoryMetrics) (r : Rusage) (k : ℕ) (o : OStream)
    (hr : r.ru_maxrss = (k : ℤ)) (hk : (k : ℤ) * 1024 ≤ 2 ^ 63 - 1) :
    m.getPeakMemoryUsageInBytes r = k * 1024 ∧
      m.printMemoryUsageInKb r o =
        { fixed := o.fixed,
          items := o.items ++ [Item.str "Memory usage(KB): ", Item.size k, Item.endl] } := by
  have hbytes : m.getPeakMemoryUsageInBytes r = k * 1024 := by
    unfold CppMemoryMetrics.getPeakMemoryUsageInBytes
    rw [hr, wrap64_eq (by omega) (by omega)]
    omega
  refine ⟨hbytes, ?_⟩
  unfold CppMemoryMetrics.printMemoryUsageInKb
  rw [hbytes]
  simp [OStream.put]

/-- A reading of 3000 kilobytes: 3072000 bytes, printed as `3000`. -/
theorem C7_peak_memory_example :
    CppMemoryMetrics.getPeakMemoryUsageInBytes {}
        { ru_utime := ⟨0, 0⟩, ru_stime := ⟨0, 0⟩, ru_maxrss := 3000 } = 3072000 ∧
      CppMemoryMetrics.printMemoryUsageInKb {}
        { ru_utime := ⟨0, 0⟩, ru_stime := ⟨0, 0⟩, ru_maxrss := 3000 }
        { fixed := false, items := [] } =
        { fixed := false,
          items := [Item.str "Memory usage(KB): ", Item.size 3000, Item.endl] } := by
  have h := C7_peak_memory_roundtrip {}
    { ru_utime := ⟨0, 0⟩, ru_stime := ⟨0, 0⟩, ru_maxrss := 3000 } 3000
    { fixed := false, items := [] } rfl (by norm_num)
  simpa using h

/-- C8: after any sequence of `start()` / `start(label)` calls on a fresh `CppCpuMetrics`,
`stop()` emits `CPU Time [ D ] : v seconds` where `D` is the label of the last
`start(label)` call (empty if there was none) and `v` is the sum of the user seconds of the
first reading and the system seconds of the second, each `tv_sec + tv_usec / 1000000`; `v`
is stored in `m_endCpuTime` and does not depend on the `start` calls. -/
theorem C8_cpu_stop_reports_total (uninit : Rusage) (calls : List (Option String))
    (r1 r2 : Rusage) (o : OStream) :
    (CppCpuMetrics.stop (cpuStarts (CppCpuMetrics.new uninit) calls) r1 r2 o).2 =
        { fixed := o.fixed,
          items := o.items ++
            [Item.str "CPU Time [ ", Item.str (((calls.filterMap id).getLast?).getD ""),
             Item.str " ] : ",
             Item.dbl o.fixed
               (Double.add
                 (Double.add (Double.ofInt r1.ru_utime.tv_sec)
                   (Double.div (Double.ofInt r1.ru_utime.tv_usec) (Double.ofInt 1000000)))
                 (Double.add (Double.ofInt r2.ru_stime.tv_sec)
                   (Double.div (Double.ofInt r2.ru_stime.tv_usec) (Double.ofInt 1000000)))),
             Item.str " seconds", Item.chr '\n'] } ∧
      (CppCpuMetrics.stop (cpuStarts (CppCpuMetrics.new uninit) calls) r1 r2 o).1.m_endCpuTime =
        Double.add
          (Double.add (Double.ofInt r1.ru_utime.tv_sec)
            (Double.div (Double.ofInt r1.ru_utime.tv_usec) (Double.ofInt 1000000)))
          (Double.add (Double.ofInt r2.ru_stime.tv_sec)
            (Double.div (Double.ofInt r2.ru_stime.tv_usec) (Double.ofInt 1000000))) := by
  have hd := cpuStarts_descriptionStr (CppCpuMetrics.new uninit) calls
  have hnew : (CppCpuMetrics.new uninit).m_descriptionStr = "" := rfl
  rw [hnew] at hd
  simp [CppCpuMetrics.stop, CppCpuMetrics.getUserCpuTimeInSeconds,
    CppCpuMetrics.getSystemCpuTimeInSeconds, timevalSeconds, numberOfMicroSecInSec,
    OStream.put, OStream.putDouble, hd]

/-- C9: from any facade state, `CppProgramMetrics::stop()` after `start(name)` at clock
reading `t0` emits exactly four lines, in this order: the elapsed-time line with label
`name` and the interval from `t0` to the stop reading, the user CPU line, the system CPU
line, and the memory line with the peak memory in kilobytes; all `double`s are in fixed
notation.  When the interval fits the 64-bit count it is `t1 - t0` in seconds, and for a
reported `ru_maxrss` of `k` kilobytes with `k * 1024 ≤ 2 ^ 63 - 1` the memory line shows
`k`. -/
theorem C9_facade_report_order (p : CppProgramMetrics) (t0 t1 : ℤ)
    (name : String) (rUser rSys rMem : Rusage) (o : OStream) :
    (CppProgramMetrics.stop (CppProgramMetrics.start p name t0) t1 rUser rSys rMem o).2 =
        { fixed := true,
          items := o.items ++
            [Item.str "Elapsed time[", Item.str name, Item.str "](seconds): ",
             Item.dbl true (timeTaken t0 t1), Item.chr '\n',
             Item.str "User CPU time(Seconds): ",
             Item.dbl true (timevalSeconds rUser.ru_utime), Item.chr '\n',
             Item.str "System CPU time(Seconds): ",
             Item.dbl true (timevalSeconds rSys.ru_stime), Item.chr '\n',
             Item.str "Memory usage(KB): ",
             Item.size (CppMemoryMetrics.getPeakMemoryUsageInBytes {} rMem / 1024),
             Item.endl] } ∧
      lines
          [Item.str "Elapsed time[", Item.str name, Item.str "](seconds): ",
           Item.dbl true (timeTaken t0 t1), Item.chr '\n',
           Item.str "User CPU time(Seconds): ",
           Item.dbl true (timevalSeconds rUser.ru_utime), Item.chr '\n',
           Item.str "System CPU time(Seconds): ",
           Item.dbl true (timevalSeconds rSys.ru_stime), Item.chr '\n',
           Item.str "Memory usage(KB): ",
           Item.size (CppMemoryMetrics.getPeakMemoryUsageInBytes {} rMem / 1024),
           Item.endl] =
        [[Item.str "Elapsed time[", Item.str name, Item.str "](seconds): ",
          Item.dbl true (timeTaken t0 t1)],
         [Item.str "User CPU time(Seconds): ", Item.dbl true (timevalSeconds rUser.ru_utime)],
         [Item.str "System CPU time(Seconds): ", Item.dbl true (timevalSeconds rSys.ru_stime)],
         [Item.str "Memory usage(KB): ",
          Item.size (CppMemoryMetrics.getPeakMemoryUsageInBytes {} rMem / 1024)]] ∧
      (-(2 ^ 63) ≤ t1 - t0 → t1 - t0 < 2 ^ 63 → timeTaken t0 t1 = toSeconds (t1 - t0)) ∧
      (∀ k : ℕ, rMem.ru_maxrss = (k : ℤ) → (k : ℤ) * 1024 ≤ 2 ^ 63 - 1 →
        CppMemoryMetrics.getPeakMemoryUsageInBytes {} rMem / 1024 = k) := by
  refine ⟨?_, ?_, fun h1 h2 => timeTaken_eq h1 h2, ?_⟩
  · simp [CppProgramMetrics.stop, CppProgramMetrics.start,
      ElapsedTime.stop, ElapsedTime.startWith, ElapsedTime.start,
      CppCpuMetrics.printUserCpuTimeInSeconds, CppCpuMetrics.printSystemCpuTimeInSeconds,
      CppCpuMetrics.getUserCpuTimeInSeconds, CppCpuMetrics.getSystemCpuTimeInSeconds,
      CppMemoryMetrics.printMemoryUsageInKb, OStream.put, OStream.putDouble,
      OStream.setFixed]
  · simp [lines, linesAux, Item.isNewline]
  · intro k hr hk
    unfold CppMemoryMetrics.getPeakMemoryUsageInBytes
    rw [hr, wrap64_eq (by omega) (by omega)]
    omega

/-- The facade demo of `main`: `start("Main Elapsed Time")`, `stop()` 2500 nanoseconds
later with 1.5 s of user time, 0.25 s of system time and a peak of 3000 KB. -/
theorem C9_facade_example :
    lines (CppProgramMetrics.stop (CppProgramMetrics.start
        (CppProgramMetrics.new Double.nan ⟨⟨0, 0⟩, ⟨0, 0⟩, 0⟩ 0) "Main Elapsed Time" 100) 2600
        ⟨⟨1, 500000⟩, ⟨0, 0⟩, 0⟩ ⟨⟨0, 0⟩, ⟨0, 250000⟩, 0⟩ ⟨⟨0, 0⟩, ⟨0, 0⟩, 3000⟩
        { fixed := false, items := [] }).2.items =
      [[Item.str "Elapsed time[", Item.str "Main Elapsed Time", Item.str "](seconds): ",
        Item.dbl true (toSeconds 2500)],
       [Item.str "User CPU time(Seconds): ", Item.dbl true (Double.fin (3 / 2))],
       [Item.str "System CPU time(Seconds): ", Item.dbl true (Double.fin (1 / 4))],
       [Item.str "Memory usage(KB): ", Item.size 3000]] := by
  have h := C9_facade_report_order (CppProgramMetrics.new Double.nan ⟨⟨0, 0⟩, ⟨0, 0⟩, 0⟩ 0)
    100 2600 "Main Elapsed Time" ⟨⟨1, 500000⟩, ⟨0, 0⟩, 0⟩ ⟨⟨0, 0⟩, ⟨0, 250000⟩, 0⟩
    ⟨⟨0, 0⟩, ⟨0, 0⟩, 3000⟩ { fixed := false, items := [] }
  obtain ⟨h1, h2, h3, h4⟩ := h
  have ht := h3 (by norm_num) (by norm_num)
  have hk := h4 3000 rfl (by norm_num)
  have hu : timevalSeconds ⟨1, 500000⟩ = Double.fin (3 / 2) := by decide!
  have hs : timevalSeconds ⟨0, 250000⟩ = Double.fin (1 / 4) := by decide!
  rw [h1]
  simp only [List.nil_append]
  rw [h2, ht, hk]
  simp only [hu, hs]
  norm_num

/-! ## Accumulation -/

theorem accumulateCalls_cons (m : String × ℤ × ℤ) (ms : List (String × ℤ × ℤ)) :
    accumulateCalls (m :: ms) =
      (Op.startAccumulate m.1, m.2.1) :: (Op.stopAccumulate, m.2.2) :: accumulateCalls ms := by
  simp [accumulateCalls]

/-- The state after `N` accumulating measurements, from any state. -/
theorem run_accumulateCalls (ms : List (String × ℤ × ℤ)) (s : ElapsedTime) (o : OStream)
    (hfit : ∀ m ∈ ms, -(2 ^ 63) ≤ m.2.2 - m.2.1 ∧ m.2.2 - m.2.1 < 2 ^ 63) :
    (run (s, o) (accumulateCalls ms)).1.m_elapsedTime =
        (ms.map fun m => toSeconds (m.2.2 - m.2.1)).foldl Double.add s.m_elapsedTime ∧
      (run (s, o) (accumulateCalls ms)).1.m_startMsg =
        (((ms.map fun m => m.1).getLast?).getD s.m_startMsg) ∧
      (run (s, o) (accumulateCalls ms)).2 = o := by
  induction ms generalizing s with
  | nil => simp [accumulateCalls, run]
  | cons m rest ih =>
    have hm := hfit m (List.mem_cons_self m rest)
    have hrest : ∀ m' ∈ rest, -(2 ^ 63) ≤ m'.2.2 - m'.2.1 ∧ m'.2.2 - m'.2.1 < 2 ^ 63 :=
      fun m' hm' => hfit m' (List.mem_cons_of_mem m hm')
    have hstep : run (s, o) (accumulateCalls (m :: rest)) =
        run ((s.startAccumulate m.1 m.2.1).stopAccumulate m.2.2, o) (accumulateCalls rest) := by
      rw [accumulateCalls_cons]
      simp [run, step]
    obtain ⟨ih1, ih2, ih3⟩ := ih ((s.startAccumulate m.1 m.2.1).stopAccumulate m.2.2) hrest
    rw [hstep]
    refine ⟨?_, ?_, ih3⟩
    · rw [ih1]
      simp [ElapsedTime.stopAccumulate, ElapsedTime.startAccumulate, timeTaken_eq hm.1 hm.2]
    · rw [ih2, List.map_cons, getLast?_cons_getD]
      rfl

/-- C1 (amended): on a freshly constructed `ElapsedTime`, `N ≥ 0` pairs
`startAccumulate(label_i)` at `start_i`, `stopAccumulate()` at `stop_i` (each interval
fitting the 64-bit nanosecond count) leave `m_elapsedTime` equal to the running `double`
sum, taken from zero in call order with every addition rounded, of the `N` intervals
`stop_i - start_i` converted to seconds; nothing is printed meanwhile; `printTime()` then
emits one line with the last label (empty for `N = 0`) and that total, in fixed notation,
and does not change the state. -/
theorem C1_accumulate_running_sum (uninit : Double) (tc tp : ℤ) (o : OStream)
    (ms : List (String × ℤ × ℤ))
    (hfit : ∀ m ∈ ms, -(2 ^ 63) ≤ m.2.2 - m.2.1 ∧ m.2.2 - m.2.1 < 2 ^ 63) :
    (run (ElapsedTime.new uninit tc, o) (accumulateCalls ms)).1.m_elapsedTime =
        (ms.map fun m => toSeconds (m.2.2 - m.2.1)).foldl Double.add (Double.fin 0) ∧
      (run (ElapsedTime.new uninit tc, o) (accumulateCalls ms)).2 = o ∧
      step (run (ElapsedTime.new uninit tc, o) (accumulateCalls ms)) (Op.printTime, tp) =
        ((run (ElapsedTime.new uninit tc, o) (accumulateCalls ms)).1,
         { fixed := true,
           items := o.items ++
             [Item.str "Elapsed time[", Item.str (((ms.map fun m => m.1).getLast?).getD ""),
              Item.str "](seconds): ",
              Item.dbl true
                ((ms.map fun m => toSeconds (m.2.2 - m.2.1)).foldl Double.add (Double.fin 0)),
              Item.chr '\n'] }) := by
  obtain ⟨h1, h2, h3⟩ := run_accumulateCalls ms (ElapsedTime.new uninit tc) o hfit
  have hnew1 : (ElapsedTime.new uninit tc).m_elapsedTime = Double.fin 0 := by
    simp [ElapsedTime.new, ofInt_zero]
  have hnew2 : (ElapsedTime.new uninit tc).m_startMsg = "" := rfl
  rw [hnew1] at h1
  rw [hnew2] at h2
  refine ⟨h1, h3, ?_⟩
  simp only [step, ElapsedTime.printTime, OStream.put, OStream.putDouble, OStream.setFixed]
  rw [h1, h2, h3]
  simp

/-- Scenario B: two `startAccumulate("Demo Acc")` / `stopAccumulate()` pairs of 1000
microseconds each make `printTime()` report `0.002`, the `double` nearest to `2/1000`. -/
theorem C1_accumulate_scenarioB :
    (step (run (ElapsedTime.new Double.nan 0, { fixed := false, items := [] })
        (accumulateCalls [("Demo Acc", 1000, 1001000), ("Demo Acc", 1003000, 2003000)]))
        (Op.printTime, 2005000)).2 =
      { fixed := true,
        items := [Item.str "Elapsed time[", Item.str "Demo Acc", Item.str "](seconds): ",
          Item.dbl true (Double.rne (2 / 1000)), Item.chr '\n'] } := by
  have h := C1_accumulate_running_sum Double.nan 0 2005000 { fixed := false, items := [] }
    [("Demo Acc", 1000, 1001000), ("Demo Acc", 1003000, 2003000)]
    (by
      intro m hm
      simp only [List.mem_cons, List.mem_singleton, List.not_mem_nil, or_false] at hm
      rcases hm with rfl | rfl <;> norm_num)
  rw [h.2.2]
  have hsum : (List.map (fun m : String × ℤ × ℤ => toSeconds (m.2.2 - m.2.1))
      [("Demo Acc", 1000, 1001000), ("Demo Acc", 1003000, 2003000)]).foldl Double.add
        (Double.fin 0) = Double.rne (2 / 1000) := by decide!
  rw [hsum]
  simp

/-- C1 as stated fails: three accumulated intervals of 0.1 s each leave
`0.30000000000000004` in `m_elapsedTime`, which is neither the exact sum `3/10` of the
intervals nor the `double` nearest to it. -/
theorem C1_exact_sum_fails :
    (run (ElapsedTime.new Double.nan 0, { fixed := false, items := [] })
        (accumulateCalls [("a", 0, 100000000), ("a", 100000000, 200000000),
          ("a", 200000000, 300000000)])).1.m_elapsedTime =
        Double.fin (1351079888211149 / 4503599627370496) ∧
      (run (ElapsedTime.new Double.nan 0, { fixed := false, items := [] })
        (accumulateCalls [("a", 0, 100000000), ("a", 100000000, 200000000),
          ("a", 200000000, 300000000)])).1.m_elapsedTime ≠
        Double.fin (((100000000 + 100000000 + 100000000 : ℤ) : ℚ) / 1000000000) ∧
      (run (ElapsedTime.new Double.nan 0, { fixed := false, items := [] })
        (accumulateCalls [("a", 0, 100000000), ("a", 100000000, 200000000),
          ("a", 200000000, 300000000)])).1.m_elapsedTime ≠
        Double.rne (((100000000 + 100000000 + 100000000 : ℤ) : ℚ) / 1000000000) := by
  decide!

/-! ## Non-negativity -/

/-- A non-negative nanosecond count converts to a non-negative number of seconds. -/
theorem le_zero_toSeconds {n : ℤ} (hn : 0 ≤ n) : Double.le Double.zero (toSeconds n) := by
  unfold toSeconds
  rw [Double.ofInt_exact (n := 1000000000) (by norm_num) (by norm_num)]
  apply Double.le_zero_div_fin _ (by norm_num)
  unfold Double.ofInt
  exact Double.le_zero_rne (by exact_mod_cast hn)

theorem le_zero_timeTaken {b e : ℤ} (h1 : b ≤ e) (h2 : e - b < 2 ^ 63) :
    Double.le Double.zero (timeTaken b e) := by
  rw [timeTaken_eq (by omega) h2]
  exact le_zero_toSeconds (by omega)

/-- The invariant of a run driven by a monotonic clock: the accumulator and every emitted
value stay non-negative. -/
theorem run_nonneg (t0 : ℤ) (calls : List (Op × ℤ)) (c : ElapsedTime × OStream)
    (hb0 : t0 ≤ c.1.begin) (hfut : ∀ call ∈ calls, c.1.begin ≤ call.2)
    (hsorted : (calls.map fun call => call.2).Pairwise (· ≤ ·))
    (hspan : ∀ call ∈ calls, call.2 - t0 < 2 ^ 63)
    (hacc : Double.le Double.zero c.1.m_elapsedTime)
    (hout : ∀ f x, Item.dbl f x ∈ c.2.items → Double.le Double.zero x) :
    Double.le Double.zero (run c calls).1.m_elapsedTime ∧
      ∀ f x, Item.dbl f x ∈ (run c calls).2.items → Double.le Double.zero x := by
  induction calls generalizing c with
  | nil => exact ⟨hacc, hout⟩
  | cons call rest ih =>
    obtain ⟨op, t⟩ := call
    obtain ⟨s, o⟩ := c
    replace hb0 : t0 ≤ s.begin := hb0
    replace hacc : Double.le Double.zero s.m_elapsedTime := hacc
    replace hout : ∀ f x, Item.dbl f x ∈ o.items → Double.le Double.zero x := hout
    simp only [List.map_cons, List.pairwise_cons, List.mem_map, forall_exists_index,
      and_imp, forall_apply_eq_imp_iff₂] at hsorted
    obtain ⟨hnext, hsorted'⟩ := hsorted
    have hbt : s.begin ≤ t := hfut (op, t) (List.mem_cons_self _ _)
    have hts : t - t0 < 2 ^ 63 := hspan (op, t) (List.mem_cons_self _ _)
    have hfut' : ∀ call ∈ rest, s.begin ≤ call.2 :=
      fun call h => hfut call (List.mem_cons_of_mem _ h)
    have hspan' : ∀ call ∈ rest, call.2 - t0 < 2 ^ 63 :=
      fun call h => hspan call (List.mem_cons_of_mem _ h)
    have htt : Double.le Double.zero (timeTaken s.begin t) :=
      le_zero_timeTaken hbt (by omega)
    have hrun : run (s, o) ((op, t) :: rest) = run (step (s, o) (op, t)) rest := by
      simp [run]
    rw [hrun]
    have hz : Double.le Double.zero (Double.fin 0) := by simp [Double.le, Double.zero]
    cases op with
    | start =>
      apply ih
      · simp only [step, ElapsedTime.start]; omega
      · intro call h; simpa [step, ElapsedTime.start] using hnext call h
      · exact hsorted'
      · exact hspan'
      · simpa [step, ElapsedTime.start, ofInt_zero] using hz
      · simpa [step] using hout
    | startWith l =>
      apply ih
      · simp only [step, ElapsedTime.startWith, ElapsedTime.start]; omega
      · intro call h; simpa [step, ElapsedTime.startWith, ElapsedTime.start] using hnext call h
      · exact hsorted'
      · exact hspan'
      · simpa [step, ElapsedTime.startWith, ElapsedTime.start, ofInt_zero] using hz
      · simpa [step] using hout
    | startAccumulate l =>
      apply ih
      · simp only [step, ElapsedTime.startAccumulate]; omega
      · intro call h; simpa [step, ElapsedTime.startAccumulate] using hnext call h
      · exact hsorted'
      · exact hspan'
      · simpa [step, ElapsedTime.startAccumulate] using hacc
      · simpa [step] using hout
    | stop =>
      apply ih
      · simpa [step, ElapsedTime.stop] using hb0
      · intro call h; simpa [step, ElapsedTime.stop] using hfut' call h
      · exact hsorted'
      · exact hspan'
      · simpa [step, ElapsedTime.stop] using Double.le_zero_add hacc htt
      · intro f x hx
        simp only [step, ElapsedTime.stop, OStream.put, OStream.putDouble, OStream.setFixed,
          List.append_assoc, List.mem_append, List.mem_cons, List.mem_singleton,
          List.not_mem_nil, or_false, Item.dbl.injEq, reduceCtorEq, false_or] at hx
        rcases hx with hx | hx
        · exact hout f x hx
        · rw [hx.2]; exact htt
    | stopAccumulate =>
      apply ih
      · simpa [step, ElapsedTime.stopAccumulate] using hb0
      · intro call h; simpa [step, ElapsedTime.stopAccumulate] using hfut' call h
      · exact hsorted'
      · exact hspan'
      · simpa [step, ElapsedTime.stopAccumulate] using Double.le_zero_add hacc htt
      · simpa [step] using hout
    | printTime =>
      apply ih
      · simpa [step] using hb0
      · intro call h; simpa [step] using hfut' call h
      · exact hsorted'
      · exact hspan'
      · simpa [step] using hacc
      · intro f x hx
        simp only [step, ElapsedTime.printTime, OStream.put, OStream.putDouble,
          OStream.setFixed, List.append_assoc, List.mem_append, List.mem_cons,
          List.mem_singleton, List.not_mem_nil, or_false, Item.dbl.injEq, reduceCtorEq,
          false_or] at hx
        rcases hx with hx | hx
        · exact hout f x hx
        · rw [hx.2]; exact hacc

/-- C6: for an `ElapsedTime` constructed at clock reading `t0` and any sequence of calls
(`start`, `start(label)`, `startAccumulate`, `stop`, `stopAccumulate`, `printTime`, in any
order) driven by non-decreasing clock readings that span less than `2 ^ 63` nanoseconds,
`m_elapsedTime` is `>= 0` after every call and every value emitted by `stop()` or
`printTime()` is `>= 0`. -/
theorem C6_durations_nonneg (uninit : Double) (fx : Bool) (t0 : ℤ) (calls : List (Op × ℤ))
    (hsorted : (t0 :: calls.map fun call => call.2).Pairwise (· ≤ ·))
    (hspan : ∀ call ∈ calls, call.2 - t0 < 2 ^ 63) (n : ℕ) :
    Double.le Double.zero
        (run (ElapsedTime.new uninit t0, { fixed := fx, items := [] })
          (calls.take n)).1.m_elapsedTime ∧
      ∀ f x,
        Item.dbl f x ∈
            (run (ElapsedTime.new uninit t0, { fixed := fx, items := [] })
              (calls.take n)).2.items →
          Double.le Double.zero x := by
  rw [List.pairwise_cons] at hsorted
  obtain ⟨hfirst, hrest⟩ := hsorted
  have hbegin : (ElapsedTime.new uninit t0).begin = t0 := rfl
  apply run_nonneg t0
  · simp only [hbegin]; exact le_rfl
  · intro call h
    simp only [hbegin]
    exact hfirst call.2 (List.mem_map_of_mem _ (List.mem_of_mem_take h))
  · rw [List.map_take]
    exact hrest.sublist (List.take_sublist n _)
  · intro call h
    exact hspan call (List.mem_of_mem_take h)
  · simp [ElapsedTime.new, ofInt_zero, Double.le, Double.zero]
  · intro f x hx
    simp at hx

/-- A run with a `stop()` before any `start`, a repeated `stop()`, an accumulating pair, a
`printTime()` and a restart: every duration is non-negative. -/
theorem C6_durations_example :
    Double.le Double.zero
        (run (ElapsedTime.new Double.nan 5, { fixed := false, items := [] })
          (List.take 7 [(Op.stop, 10), (Op.stop, 10), (Op.startAccumulate "x", 20),
            (Op.stopAccumulate, 50), (Op.printTime, 50), (Op.start, 60),
            (Op.stop, 100)])).1.m_elapsedTime ∧
      ∀ f x,
        Item.dbl f x ∈
            (run (ElapsedTime.new Double.nan 5, { fixed := false, items := [] })
              (List.take 7 [(Op.stop, 10), (Op.stop, 10), (Op.startAccumulate "x", 20),
                (Op.stopAccumulate, 50), (Op.printTime, 50), (Op.start, 60),
                (Op.stop, 100)])).2.items →
          Double.le Double.zero x :=
  C6_durations_nonneg Double.nan false 5
    [(Op.stop, 10), (Op.stop, 10), (Op.startAccumulate "x", 20), (Op.stopAccumulate, 50),
      (Op.printTime, 50), (Op.start, 60), (Op.stop, 100)]
    (by decide) (by decide) 7

/-! ## Monotonicity of the CPU-time getters -/

/-- The fraction `tv_usec / 1000000.0` as a rational. -/
theorem usec_div (u : ℤ) (h0 : 0 ≤ u) (h1 : u < 1000000) :
    Double.div (Double.ofInt u) (Double.ofInt numberOfMicroSecInSec) =
        Double.fin (Double.rne ((u : ℚ) / 1000000)).toRat ∧
      0 ≤ (Double.rne ((u : ℚ) / 1000000)).toRat ∧
      (Double.rne ((u : ℚ) / 1000000)).toRat ≤ 1 - 1 / 2 ^ 21 ∧
      |(Double.rne ((u : ℚ) / 1000000)).toRat - (u : ℚ) / 1000000| ≤ 1 / 2 ^ 54 := by
  have hu0 : (0 : ℚ) ≤ (u : ℚ) := by exact_mod_cast h0
  have hu1 : (u : ℚ) ≤ 999999 := by
    have : u ≤ 999999 := by omega
    exact_mod_cast this
  have hx0 : (0 : ℚ) ≤ (u : ℚ) / 1000000 := by positivity
  have hx1 : (u : ℚ) / 1000000 ≤ (((2 ^ 21 - 1 : ℕ) : ℚ)) / 2 ^ 21 := by
    rw [div_le_div_iff₀ (by norm_num) (by norm_num)]
    norm_num
    linarith
  have hg : ((((2 ^ 21 - 1 : ℕ) : ℚ)) / 2 ^ 21) < 2 ^ (1023 : ℕ) := by norm_num
  refine ⟨?_, Double.toRat_rne_nonneg hx0, ?_, ?_⟩
  · unfold numberOfMicroSecInSec
    rw [Double.ofInt_exact (by omega) (by omega),
      Double.ofInt_exact (n := 1000000) (by norm_num) (by norm_num)]
    simp only [Double.div]
    rw [if_neg (by norm_num)]
    push_cast
    exact Double.rne_eq_fin_toRat hx0 (lt_of_le_of_lt hx1 hg)
  · have := Double.toRat_rne_mono hx0 hx1 hg
    rw [Double.toRat_rne_dyadic (by norm_num) (by norm_num)] at this
    calc (Double.rne ((u : ℚ) / 1000000)).toRat ≤ (((2 ^ 21 - 1 : ℕ) : ℚ)) / 2 ^ 21 := this
      _ = 1 - 1 / 2 ^ 21 := by norm_num
  · have h := Double.abs_toRat_rne_sub_le (e := 0) hx0
      (by rw [zpow_zero, div_lt_one (by norm_num)]; linarith) (by norm_num) (by norm_num)
    have e54 : (2 : ℚ) ^ ((0 : ℤ) - 54) = 1 / 2 ^ 54 := by norm_num [zpow_neg]
    rwa [e54] at h

/-- The value returned for a reading, as a rational: the sum of the `double` of `tv_sec` and
the rounded fraction, rounded once more. -/
theorem timevalSeconds_eq (tv : Timeval) (hs0 : 0 ≤ tv.tv_sec) (hs1 : tv.tv_sec < 2 ^ 63)
    (hu0 : 0 ≤ tv.tv_usec) (hu1 : tv.tv_usec < 1000000) :
    timevalSeconds tv =
        Double.fin (Double.rne ((Double.rne (tv.tv_sec : ℚ)).toRat +
          (Double.rne ((tv.tv_usec : ℚ) / 1000000)).toRat)).toRat ∧
      0 ≤ (Double.rne (tv.tv_sec : ℚ)).toRat ∧
      (Double.rne (tv.tv_sec : ℚ)).toRat ≤ 2 ^ 63 + 2 ^ 9 := by
  obtain ⟨hd, hf0, hf1, -⟩ := usec_div tv.tv_usec hu0 hu1
  have hs0' : (0 : ℚ) ≤ (tv.tv_sec : ℚ) := by exact_mod_cast hs0
  have hs1' : (tv.tv_sec : ℚ) < (2 : ℚ) ^ (63 : ℤ) := by
    have h63 : (tv.tv_sec : ℚ) < 2 ^ 63 := by exact_mod_cast hs1
    rw [show (2 : ℚ) ^ (63 : ℤ) = 2 ^ 63 by norm_num]
    exact h63
  have hs2 : (tv.tv_sec : ℚ) < 2 ^ (1023 : ℕ) := by
    have : (2 : ℚ) ^ (63 : ℤ) < 2 ^ (1023 : ℕ) := by norm_num
    linarith
  have herr := Double.abs_toRat_rne_sub_le (e := 63) hs0' hs1' (by norm_num) (by norm_num)
  have hS0 := Double.toRat_rne_nonneg hs0'
  have hS1 : (Double.rne (tv.tv_sec : ℚ)).toRat ≤ 2 ^ 63 + 2 ^ 9 := by
    have e9 : (2 : ℚ) ^ ((63 : ℤ) - 54) = 2 ^ 9 := by norm_num
    have e63 : (2 : ℚ) ^ (63 : ℤ) = 2 ^ 63 := by norm_num
    rw [e9, abs_le] at herr
    rw [e63] at hs1'
    linarith [herr.2]
  refine ⟨?_, hS0, hS1⟩
  unfold timevalSeconds
  rw [hd]
  unfold Double.ofInt
  rw [Double.rne_eq_fin_toRat hs0' hs2]
  simp only [Double.add]
  apply Double.rne_eq_fin_toRat (by linarith)
  have : (2 : ℚ) ^ 63 + 2 ^ 9 + 1 < 2 ^ (1023 : ℕ) := by norm_num
  linarith

/-- Seconds below `2 ^ 53` convert exactly. -/
theorem toRat_rne_sec {n : ℤ} (h0 : 0 ≤ n) (h1 : n < 2 ^ 53) :
    (Double.rne (n : ℚ)).toRat = n := by
  have := Double.ofInt_exact (n := n) (by omega) h1
  unfold Double.ofInt at this
  rw [this]; rfl

/-- The value returned for a reading is non-decreasing in the reading. -/
theorem timevalSeconds_mono (tv1 tv2 : Timeval)
    (hs1 : 0 ≤ tv1.tv_sec) (hs2 : tv2.tv_sec < 2 ^ 63)
    (hu1 : 0 ≤ tv1.tv_usec ∧ tv1.tv_usec < 1000000)
    (hu2 : 0 ≤ tv2.tv_usec ∧ tv2.tv_usec < 1000000)
    (hlex : tv1.tv_sec < tv2.tv_sec ∨ (tv1.tv_sec = tv2.tv_sec ∧ tv1.tv_usec ≤ tv2.tv_usec)) :
    Double.le (timevalSeconds tv1) (timevalSeconds tv2) := by
  have hs1' : tv1.tv_sec < 2 ^ 63 := by omega
  have hs2' : 0 ≤ tv2.tv_sec := by omega
  obtain ⟨e1, hS1a, hS1b⟩ := timevalSeconds_eq tv1 hs1 hs1' hu1.1 hu1.2
  obtain ⟨e2, hS2a, hS2b⟩ := timevalSeconds_eq tv2 hs2' hs2 hu2.1 hu2.2
  obtain ⟨-, hf1a, hf1b, -⟩ := usec_div tv1.tv_usec hu1.1 hu1.2
  obtain ⟨-, hf2a, hf2b, -⟩ := usec_div tv2.tv_usec hu2.1 hu2.2
  rw [e1, e2]
  show _ ≤ _
  have hbig : (2 : ℚ) ^ 63 + 2 ^ 9 + 1 < 2 ^ (1023 : ℕ) := by norm_num
  have hq1 : (0 : ℚ) ≤ (tv1.tv_sec : ℚ) := by exact_mod_cast hs1
  have hq2 : (tv2.tv_sec : ℚ) < 2 ^ (1023 : ℕ) := by
    have : (tv2.tv_sec : ℚ) < ((2 ^ 63 : ℤ) : ℚ) := by exact_mod_cast hs2
    have h' : (((2 ^ 63 : ℤ)) : ℚ) < 2 ^ (1023 : ℕ) := by norm_num
    linarith
  rcases hlex with hlt | ⟨heq, hule⟩
  · by_cases hb2 : tv2.tv_sec < 2 ^ 53
    · -- both seconds counts are exact
      rw [toRat_rne_sec hs1 (by omega), toRat_rne_sec hs2' hb2]
      apply Double.toRat_rne_mono (by linarith)
      · have : (tv1.tv_sec : ℚ) + 1 ≤ (tv2.tv_sec : ℚ) := by exact_mod_cast hlt
        have h21 : (0 : ℚ) < 1 / 2 ^ 21 := by positivity
        linarith
      · have : (tv2.tv_sec : ℚ) < ((2 ^ 53 : ℤ) : ℚ) := by exact_mod_cast hb2
        have h' : (((2 ^ 53 : ℤ)) : ℚ) + 1 < 2 ^ (1023 : ℕ) := by norm_num
        linarith
    · -- the later value absorbs its fraction
      have h21 : (0 : ℚ) < 1 / 2 ^ 21 := by positivity
      rw [Double.toRat_rne_absorb (n := tv2.tv_sec) (by omega) hs2 hf2a (by linarith)]
      by_cases hb1 : tv1.tv_sec < 2 ^ 53
      · rw [toRat_rne_sec hs1 hb1]
        have hle : (tv1.tv_sec : ℚ) + (Double.rne ((tv1.tv_usec : ℚ) / 1000000)).toRat ≤
            (tv2.tv_sec : ℚ) := by
          have : (tv1.tv_sec : ℚ) + 1 ≤ (tv2.tv_sec : ℚ) := by exact_mod_cast hlt
          linarith
        exact Double.toRat_rne_mono (by linarith) hle hq2
      · rw [Double.toRat_rne_absorb (n := tv1.tv_sec) (by omega) hs1' hf1a (by linarith)]
        exact Double.toRat_rne_mono hq1 (by exact_mod_cast hlt.le) hq2
  · rw [heq]
    have hfle : (Double.rne ((tv1.tv_usec : ℚ) / 1000000)).toRat ≤
        (Double.rne ((tv2.tv_usec : ℚ) / 1000000)).toRat := by
      have hu0 : (0 : ℚ) ≤ (tv1.tv_usec : ℚ) := by exact_mod_cast hu1.1
      apply Double.toRat_rne_mono (div_nonneg hu0 (by norm_num))
      · apply div_le_div_of_nonneg_right _ (by norm_num)
        exact_mod_cast hule
      · have : (tv2.tv_usec : ℚ) < 1000000 := by exact_mod_cast hu2.2
        have h1 : (tv2.tv_usec : ℚ) / 1000000 < 1 := by
          rw [div_lt_one (by norm_num)]; exact this
        have h2 : (1 : ℚ) < 2 ^ (1023 : ℕ) := by norm_num
        linarith
    apply Double.toRat_rne_mono (by linarith) (by linarith)
    linarith

/-- Below `2 ^ 33` seconds the value returned for a reading is strictly increasing in the
reading. -/
theorem timevalSeconds_strictMono (tv1 tv2 : Timeval)
    (hs1 : 0 ≤ tv1.tv_sec) (hs2 : tv2.tv_sec < 2 ^ 33)
    (hu1 : 0 ≤ tv1.tv_usec ∧ tv1.tv_usec < 1000000)
    (hu2 : 0 ≤ tv2.tv_usec ∧ tv2.tv_usec < 1000000)
    (hlex : tv1.tv_sec < tv2.tv_sec ∨ (tv1.tv_sec = tv2.tv_sec ∧ tv1.tv_usec < tv2.tv_usec)) :
    Double.lt (timevalSeconds tv1) (timevalSeconds tv2) := by
  have hs1' : tv1.tv_sec < 2 ^ 33 := by omega
  have hs2' : 0 ≤ tv2.tv_sec := by omega
  obtain ⟨e1, -, -⟩ := timevalSeconds_eq tv1 hs1 (by omega) hu1.1 hu1.2
  obtain ⟨e2, -, -⟩ := timevalSeconds_eq tv2 hs2' (by omega) hu2.1 hu2.2
  obtain ⟨-, hf1a, hf1b, hf1c⟩ := usec_div tv1.tv_usec hu1.1 hu1.2
  obtain ⟨-, hf2a, hf2b, hf2c⟩ := usec_div tv2.tv_usec hu2.1 hu2.2
  rw [e1, e2, toRat_rne_sec hs1 (by omega), toRat_rne_sec hs2' (by omega)]
  show _ < _
  have h21 : (0 : ℚ) < 1 / 2 ^ 21 := by positivity
  have hq1 : (0 : ℚ) ≤ (tv1.tv_sec : ℚ) := by exact_mod_cast hs1
  have hq2 : (0 : ℚ) ≤ (tv2.tv_sec : ℚ) := by exact_mod_cast hs2'
  have hb1 : (tv1.tv_sec : ℚ) + 1 ≤ 2 ^ 33 := by
    have : tv1.tv_sec + 1 ≤ 2 ^ 33 := by omega
    exact_mod_cast this
  have hb2 : (tv2.tv_sec : ℚ) + 1 ≤ 2 ^ 33 := by
    have : tv2.tv_sec + 1 ≤ 2 ^ 33 := by omega
    exact_mod_cast this
  have e33 : (2 : ℚ) ^ (33 : ℤ) = 2 ^ 33 := by norm_num
  have e21 : (2 : ℚ) ^ ((33 : ℤ) - 54) = 1 / 2 ^ 21 := by norm_num [zpow_neg]
  have hr1 := Double.abs_toRat_rne_sub_le (e := 33)
    (x := (tv1.tv_sec : ℚ) + (Double.rne ((tv1.tv_usec : ℚ) / 1000000)).toRat)
    (by linarith) (by rw [e33]; linarith) (by norm_num) (by norm_num)
  have hr2 := Double.abs_toRat_rne_sub_le (e := 33)
    (x := (tv2.tv_sec : ℚ) + (Double.rne ((tv2.tv_usec : ℚ) / 1000000)).toRat)
    (by linarith) (by rw [e33]; linarith) (by norm_num) (by norm_num)
  rw [e21, abs_le] at hr1 hr2
  rw [abs_le] at hf1c hf2c
  -- the exact readings differ by at least one microsecond
  have hgap : (tv1.tv_sec : ℚ) + (tv1.tv_usec : ℚ) / 1000000 + 1 / 1000000 ≤
      (tv2.tv_sec : ℚ) + (tv2.tv_usec : ℚ) / 1000000 := by
    have hz : tv1.tv_sec * 1000000 + tv1.tv_usec + 1 ≤ tv2.tv_sec * 1000000 + tv2.tv_usec := by
      rcases hlex with h | ⟨h, h'⟩ <;> omega
    have hz' : (tv1.tv_sec : ℚ) * 1000000 + (tv1.tv_usec : ℚ) + 1 ≤
        (tv2.tv_sec : ℚ) * 1000000 + (tv2.tv_usec : ℚ) := by exact_mod_cast hz
    linarith
  have hnum : (1 : ℚ) / 2 ^ 21 + 1 / 2 ^ 21 + 1 / 2 ^ 54 + 1 / 2 ^ 54 < 1 / 1000000 := by
    norm_num
  linarith [hr1.1, hr1.2, hr2.1, hr2.2, hf1c.1, hf1c.2, hf2c.1, hf2c.2]

/-- C10 (amended): for two `timeval` readings with `0 ≤ tv_usec < 1000000` and
`0 ≤ tv_sec < 2 ^ 63`, the first lexicographically at most the second, the value
`tv_sec + tv_usec / 1000000` that `getUserCpuTimeInSeconds()` (and likewise
`getSystemCpuTimeInSeconds()`) returns for the first is `<=` the value for the second; it is
strictly smaller when the second reading is strictly later and its `tv_sec` is below
`2 ^ 33`. -/
theorem C10_cpu_getters_monotone (tv1 tv2 : Timeval) (c1 c2 : CppCpuMetrics) (r1 r2 : Rusage)
    (hs1 : 0 ≤ tv1.tv_sec) (hs2 : tv2.tv_sec < 2 ^ 63)
    (hu1 : 0 ≤ tv1.tv_usec ∧ tv1.tv_usec < 1000000)
    (hu2 : 0 ≤ tv2.tv_usec ∧ tv2.tv_usec < 1000000)
    (hlex : tv1.tv_sec < tv2.tv_sec ∨ (tv1.tv_sec = tv2.tv_sec ∧ tv1.tv_usec ≤ tv2.tv_usec)) :
    (r1.ru_utime = tv1 → r2.ru_utime = tv2 →
        Double.le (c1.getUserCpuTimeInSeconds r1).2 (c2.getUserCpuTimeInSeconds r2).2 ∧
        ((tv1.tv_sec < tv2.tv_sec ∨ (tv1.tv_sec = tv2.tv_sec ∧ tv1.tv_usec < tv2.tv_usec)) →
          tv2.tv_sec < 2 ^ 33 →
          Double.lt (c1.getUserCpuTimeInSeconds r1).2 (c2.getUserCpuTimeInSeconds r2).2)) ∧
      (r1.ru_stime = tv1 → r2.ru_stime = tv2 →
        Double.le (c1.getSystemCpuTimeInSeconds r1).2 (c2.getSystemCpuTimeInSeconds r2).2 ∧
        ((tv1.tv_sec < tv2.tv_sec ∨ (tv1.tv_sec = tv2.tv_sec ∧ tv1.tv_usec < tv2.tv_usec)) →
          tv2.tv_sec < 2 ^ 33 →
          Double.lt (c1.getSystemCpuTimeInSeconds r1).2
            (c2.getSystemCpuTimeInSeconds r2).2)) := by
  have hle := timevalSeconds_mono tv1 tv2 hs1 hs2 hu1 hu2 hlex
  have hlt := fun hstrict hb => timevalSeconds_strictMono tv1 tv2 hs1 hb hu1 hu2 hstrict
  constructor
  · intro e1 e2
    simp only [CppCpuMetrics.getUserCpuTimeInSeconds, e1, e2]
    exact ⟨hle, hlt⟩
  · intro e1 e2
    simp only [CppCpuMetrics.getSystemCpuTimeInSeconds, e1, e2]
    exact ⟨hle, hlt⟩

/-- One microsecond later after 1.5 s of user time: the returned value grows strictly. -/
theorem C10_cpu_getters_example :
    Double.lt
      (CppCpuMetrics.getUserCpuTimeInSeconds (CppCpuMetrics.new ⟨⟨0, 0⟩, ⟨0, 0⟩, 0⟩)
        ⟨⟨1, 500000⟩, ⟨0, 0⟩, 0⟩).2
      (CppCpuMetrics.getUserCpuTimeInSeconds (CppCpuMetrics.new ⟨⟨0, 0⟩, ⟨0, 0⟩, 0⟩)
        ⟨⟨1, 500001⟩, ⟨0, 0⟩, 0⟩).2 :=
  ((C10_cpu_getters_monotone ⟨1, 500000⟩ ⟨1, 500001⟩ (CppCpuMetrics.new ⟨⟨0, 0⟩, ⟨0, 0⟩, 0⟩)
    (CppCpuMetrics.new ⟨⟨0, 0⟩, ⟨0, 0⟩, 0⟩) ⟨⟨1, 500000⟩, ⟨0, 0⟩, 0⟩ ⟨⟨1, 500001⟩, ⟨0, 0⟩, 0⟩
    (by decide) (by decide) (by decide) (by decide) (by decide)).1 rfl rfl).2
    (by decide) (by decide)

/-- C10 as stated fails: at `2 ^ 33` seconds of user time the readings of 1 and of 2
microseconds return the same `double`, so the later reading is not strictly larger. -/
theorem C10_strict_fails :
    (CppCpuMetrics.getUserCpuTimeInSeconds (CppCpuMetrics.new ⟨⟨0, 0⟩, ⟨0, 0⟩, 0⟩)
        ⟨⟨8589934592, 1⟩, ⟨0, 0⟩, 0⟩).2 =
      (CppCpuMetrics.getUserCpuTimeInSeconds (CppCpuMetrics.new ⟨⟨0, 0⟩, ⟨0, 0⟩, 0⟩)
        ⟨⟨8589934592, 2⟩, ⟨0, 0⟩, 0⟩).2 ∧
      ¬ Double.lt
        (CppCpuMetrics.getUserCpuTimeInSeconds (CppCpuMetrics.new ⟨⟨0, 0⟩, ⟨0, 0⟩, 0⟩)
          ⟨⟨8589934592, 1⟩, ⟨0, 0⟩, 0⟩).2
        (CppCpuMetrics.getUserCpuTimeInSeconds (CppCpuMetrics.new ⟨⟨0, 0⟩, ⟨0, 0⟩, 0⟩)
          ⟨⟨8589934592, 2⟩, ⟨0, 0⟩, 0⟩).2 := by
  decide!

end Metrics
